import Mathlib

/-!
# File Organizer Bot — verification of the core engine

Shallow embedding of `src/organizer.py`: the rule-based classification
engine (`matches_rule`, `pick_category`), path planning
(`with_date_bucket`, `dedup_path`), the mover (`move_file`), the
transaction log (`save_move_log`, `undo_last`) and the one-shot
orchestrator (`organize_once`).

Modelling conventions:
* Paths are plain strings joined with `"/"`; `fileName`/`parentPath`
  mirror `pathlib`'s `name`/`parent` (split at the last slash), and
  `pySuffix`/`pyStem` mirror `PurePath.suffix`/`PurePath.stem`
  (split of the name at the last dot, ignoring a leading or trailing
  dot).
* The filesystem is a finite association list of file paths to file
  data (content string plus a modification date) together with a list
  of directory paths.  A file's byte length is its content length;
  `st_mtime` is modelled directly as a calendar date (year, month)
  since only `%Y`/`%m` formatting of it is observable.
* Compiled regular expressions are modelled extensionally as the
  Boolean result of `pattern.search` on a string.
* Sizes in megabytes are rationals (`bytes / (1024 * 1024)`).
* Fallible filesystem calls (`mkdir` on a path blocked by a regular
  file, `shutil.move` of a vanished source, `open` of a directory)
  return `Except`, mirroring the Python exceptions; an uncaught
  exception is an `Except.error` result of the enclosing function.
-/

/-! ## Path helpers (pathlib semantics) -/

/-- Characters after the last `'/'` (the whole list if there is none). -/
def afterSlash (l : List Char) : List Char :=
  (l.reverse.takeWhile (fun c => !(c == '/'))).reverse

/-- Characters before the last `'/'` (empty if there is none). -/
def beforeSlash (l : List Char) : List Char :=
  ((l.reverse.dropWhile (fun c => !(c == '/'))).drop 1).reverse

/-- `PurePath.name`: the final path component. -/
def fileName (p : String) : String := String.mk (afterSlash p.data)

/-- `PurePath.parent` rendered as a string (`""` for a single component,
matching `Path(".")`). -/
def parentPath (p : String) : String := String.mk (beforeSlash p.data)

/-- Path join `a / b`. -/
def joinPath (a b : String) : String := a ++ "/" ++ b

/-- `parent / name` as done on a `Path` value: joining onto `Path(".")`
(rendered `""`) yields the name alone. -/
def pjoin (par nm : String) : String := if par = "" then nm else joinPath par nm

theorem afterSlash_append (a : List Char) (b : List Char)
    (hb : '/' ∉ b) : afterSlash (a ++ '/' :: b) = b := by
  unfold afterSlash
  rw [List.reverse_append, List.reverse_cons, List.append_assoc]
  rw [List.takeWhile_append]
  have h1 : b.reverse.takeWhile (fun c => !(c == '/')) = b.reverse := by
    apply List.takeWhile_eq_self_iff.mpr
    intro c hc
    simp only [Bool.not_eq_true', beq_eq_false_iff_ne, ne_eq]
    intro h; subst h; exact hb (List.mem_reverse.mp hc)
  simp [h1]

theorem beforeSlash_append (a : List Char) (b : List Char)
    (hb : '/' ∉ b) : beforeSlash (a ++ '/' :: b) = a := by
  unfold beforeSlash
  rw [List.reverse_append, List.reverse_cons, List.append_assoc]
  rw [List.dropWhile_append]
  have h1 : b.reverse.dropWhile (fun c => !(c == '/')) = [] := by
    apply List.dropWhile_eq_nil_iff.mpr
    intro c hc
    simp only [Bool.not_eq_true', beq_eq_false_iff_ne, ne_eq, not_not]
    by_contra h
    exact hb (List.mem_reverse.mp (by simpa [h] using hc))
  simp [h1]

theorem data_append_slash (a b : String) :
    (joinPath a b).data = a.data ++ '/' :: b.data := by
  simp [joinPath, String.data_append]

theorem parentPath_join (a b : String) (hb : '/' ∉ b.data) :
    parentPath (joinPath a b) = a := by
  unfold parentPath
  rw [data_append_slash, beforeSlash_append a.data b.data hb]

theorem fileName_join (a b : String) (hb : '/' ∉ b.data) :
    fileName (joinPath a b) = b := by
  unfold fileName
  rw [data_append_slash, afterSlash_append a.data b.data hb]

/-- Whether a path has more than one component. -/
def hasSlash (p : String) : Bool := p.data.contains '/'

theorem path_decomp (p : String) (h : hasSlash p = true) :
    p.data = (parentPath p).data ++ '/' :: (fileName p).data ∧
      '/' ∉ (fileName p).data := by
  have hsplit := List.takeWhile_append_dropWhile
    (p := fun c => !(c == '/')) (l := p.data.reverse)
  have hmem : '/' ∈ p.data.reverse := by
    rw [List.mem_reverse]
    simpa [hasSlash] using h
  -- the dropWhile part must be nonempty and start with '/'
  have hne : p.data.reverse.dropWhile (fun c => !(c == '/')) ≠ [] := by
    intro hnil
    rw [← hsplit, hnil, List.append_nil] at hmem
    have := List.mem_takeWhile_imp hmem
    simp at this
  obtain ⟨c, rest, heq⟩ := List.exists_cons_of_ne_nil hne
  have hc : c = '/' := by
    have := List.head?_dropWhile_not (p := fun c => !(c == '/'))
      (l := p.data.reverse)
    rw [heq] at this
    simpa using this
  subst hc
  have hname : (fileName p).data = (p.data.reverse.takeWhile
      (fun c => !(c == '/'))).reverse := rfl
  have hpar : (parentPath p).data = rest.reverse := by
    simp [parentPath, beforeSlash, heq]
  constructor
  · conv_lhs => rw [← List.reverse_reverse p.data, ← hsplit]
    rw [hname, hpar, heq, List.reverse_append, List.reverse_cons,
      List.append_assoc]
    rfl
  · intro hmm
    rw [hname] at hmm
    have := List.mem_takeWhile_imp (List.mem_reverse.mp hmm)
    simp at this

theorem parentPath_of_no_slash (p : String) (h : hasSlash p = false) :
    parentPath p = "" := by
  have : p.data.reverse.dropWhile (fun c => !(c == '/')) = [] := by
    apply List.dropWhile_eq_nil_iff.mpr
    intro c hc
    have : c ∈ p.data := List.mem_reverse.mp hc
    simp only [Bool.not_eq_true', beq_eq_false_iff_ne, ne_eq]
    intro hceq; subst hceq
    simp [hasSlash] at h
    exact h this
  simp [parentPath, beforeSlash, this]

/-- If `parentPath p = d` with `d ≠ ""`, then `p` literally is
`d ++ "/" ++ fileName p` with a slash-free name. -/
theorem parent_decomp (p d : String) (hd : d ≠ "")
    (h : parentPath p = d) :
    p.data = d.data ++ '/' :: (fileName p).data ∧
      '/' ∉ (fileName p).data := by
  cases hs : hasSlash p with
  | false =>
    exact absurd (parentPath_of_no_slash p hs ▸ h.symm) (by simpa using hd)
  | true =>
    have := path_decomp p hs
    rw [h] at this
    exact this

theorem length_of_parent (p d : String) (hd : d ≠ "")
    (h : parentPath p = d) : d.length < p.length := by
  obtain ⟨hdata, -⟩ := parent_decomp p d hd h
  have : p.data.length = d.data.length + 1 + (fileName p).data.length := by
    rw [hdata]; simp; omega
  simp only [String.length]
  omega

/-! ## `PurePath.suffix` / `PurePath.stem` and `str.lstrip(".")` -/

/-- `PurePath.suffix`: the extension of the final component including the
dot, empty when the last dot is the first or last character of the
name. -/
def pySuffix (name : String) : String :=
  let l := name.data
  if l.contains '.' then
    let after := (l.reverse.takeWhile (fun c => !(c == '.'))).reverse
    let before := ((l.reverse.dropWhile (fun c => !(c == '.'))).drop 1).reverse
    if !before.isEmpty && !after.isEmpty then String.mk ('.' :: after) else ""
  else ""

/-- `PurePath.stem`: the final component without its suffix. -/
def pyStem (name : String) : String :=
  let l := name.data
  if l.contains '.' then
    let after := (l.reverse.takeWhile (fun c => !(c == '.'))).reverse
    let before := ((l.reverse.dropWhile (fun c => !(c == '.'))).drop 1).reverse
    if !before.isEmpty && !after.isEmpty then String.mk before else name
  else name

/-- `s.lstrip(".")`: drop all leading dots. -/
def lstripDot (s : String) : String :=
  String.mk (s.data.dropWhile (fun c => c == '.'))

/-- `s.lower()` (ASCII model: extensions and categories are compared
after per-character lowercasing). -/
def strLower (s : String) : String := String.mk (s.data.map Char.toLower)

/-! ## Decimal numerals: `Nat.repr` is injective

`dedup_path` inserts the decimal rendering of the counter into the
candidate name; distinct counters must give distinct candidates. -/

def digitVal (c : Char) : ℕ := c.toNat - 48

def parseDigits (l : List Char) : ℕ :=
  l.foldl (fun a c => a * 10 + digitVal c) 0

theorem digitVal_digitChar (r : ℕ) (h : r < 10) :
    digitVal (Nat.digitChar r) = r := by
  interval_cases r <;> rfl

theorem parseFrom_eq (l : List Char) (a : ℕ) :
    l.foldl (fun a c => a * 10 + digitVal c) a =
      a * 10 ^ l.length + parseDigits l := by
  induction l generalizing a with
  | nil => simp [parseDigits]
  | cons c cs ih =>
    simp only [List.foldl_cons, parseDigits]
    rw [ih (a * 10 + digitVal c), ih (0 * 10 + digitVal c)]
    ring_nf
    simp [pow_succ]
    ring

theorem toDigitsCore_spec (fuel n : ℕ) (ds : List Char) (hf : n < fuel) :
    Nat.toDigitsCore 10 fuel n ds =
      Nat.toDigitsCore 10 (n + 1) n [] ++ ds := by
  induction fuel using Nat.strong_induction_on generalizing n ds with
  | _ fuel ih =>
    match fuel, hf with
    | f + 1, hf =>
      show Nat.toDigitsCore 10 (f + 1) n ds = _
      simp only [Nat.toDigitsCore]
      by_cases h0 : n / 10 = 0
      · simp [h0]
      · simp only [h0, if_false]
        have h10 : n / 10 < n := Nat.div_lt_self (Nat.pos_of_ne_zero
          (by intro hn; subst hn; simp at h0)) (by omega)
        have hlt : n / 10 < f := by omega
        rw [ih f (by omega) (n / 10) _ hlt,
          ih n hf (n / 10) _ h10]
        simp [List.append_assoc]

theorem parse_toDigits (n : ℕ) :
    parseDigits (Nat.toDigitsCore 10 (n + 1) n []) = n := by
  induction n using Nat.strong_induction_on with
  | _ n ih =>
    show parseDigits (Nat.toDigitsCore 10 (n + 1) n []) = n
    simp only [Nat.toDigitsCore]
    by_cases h0 : n / 10 = 0
    · simp only [h0, if_true]
      have hn : n < 10 := by omega
      rw [Nat.mod_eq_of_lt hn]
      simp [parseDigits, digitVal_digitChar n hn]
    · simp only [h0, if_false]
      have hlt : n / 10 < n := Nat.div_lt_self (Nat.pos_of_ne_zero
        (by intro hn; subst hn; simp at h0)) (by omega)
      rw [toDigitsCore_spec n (n / 10) _ (by omega)]
      have hrec := ih (n / 10) hlt
      simp only [parseDigits] at hrec ⊢
      rw [List.foldl_append, hrec]
      have : digitVal (Nat.digitChar (n % 10)) = n % 10 :=
        digitVal_digitChar _ (Nat.mod_lt _ (by omega))
      simp [this]
      omega

theorem natRepr_injective (m n : ℕ) (h : Nat.repr m = Nat.repr n) : m = n := by
  have hdata : (Nat.toDigits 10 m) = (Nat.toDigits 10 n) := by
    have := congrArg String.data h
    simpa [Nat.repr, List.asString] using this
  have := congrArg parseDigits hdata
  simpa [Nat.toDigits, parse_toDigits] using this

/-! ## Filesystem model -/

/-- Modification time, modelled directly as the calendar fields that
`with_date_bucket` renders (`%Y` and `%m` of
`datetime.fromtimestamp(st_mtime)`). -/
structure DateTime where
  year : ℕ
  month : ℕ
deriving DecidableEq, Repr

/-- Data of a regular file: its contents (whose length is the byte
size reported by `stat`) and its modification time. -/
structure FData where
  content : String
  mtime : DateTime
deriving DecidableEq, Repr

/-- A filesystem snapshot: an association list of regular files and a
list of directory paths. -/
structure FS where
  files : List (String × FData)
  dirs : List String
deriving DecidableEq, Repr

def lookupFile (fs : FS) (p : String) : Option FData :=
  (fs.files.find? (fun e => e.1 == p)).map (·.2)

/-- `Path.is_file()`. -/
def fileE (fs : FS) (p : String) : Bool := (lookupFile fs p).isSome

/-- `Path.is_dir()`. -/
def dirE (fs : FS) (p : String) : Bool := fs.dirs.contains p

/-- `Path.exists()`: true for files and directories. -/
def pexists (fs : FS) (p : String) : Bool := fileE fs p || dirE fs p

def addDir (fs : FS) (p : String) : FS := { fs with dirs := p :: fs.dirs }

def removeFile (fs : FS) (p : String) : FS :=
  { fs with files := fs.files.filter (fun e => !(e.1 == p)) }

/-- `open(p, "w").write(c)`: create or truncate a regular file. -/
def writeFile (fs : FS) (p : String) (d : FData) : FS :=
  { fs with files := (p, d) :: fs.files.filter (fun e => !(e.1 == p)) }

/-- `p.read_text()`, defined on existing regular files. -/
def readText (fs : FS) (p : String) : String :=
  ((lookupFile fs p).map (·.content)).getD ""

/-- `shutil.move(src, dst)`.  When `dst` is an existing directory the
real destination is `dst / basename(src)`; a regular-file source is
renamed there (replacing a regular file in the way, POSIX rename
semantics); a directory source has its whole subtree renamed. -/
def shutilMoveFs (fs : FS) (src dst : String) : FS :=
  let real := if dirE fs dst then joinPath dst (fileName src) else dst
  match lookupFile fs src with
  | some d =>
    { fs with files :=
        (real, d) :: (fs.files.filter (fun e => !(e.1 == src) && !(e.1 == real))) }
  | none =>
    let ren := fun q => if q == src then real
      else if (src ++ "/").isPrefixOf q then real ++ q.drop src.length else q
    { files := fs.files.map (fun e => (ren e.1, e.2)),
      dirs := fs.dirs.map ren }

/-- The chain of ancestors of `p`, leaf first (`p`, `p.parent`, …),
stopping at a single-component path. -/
def chainAux : ℕ → String → List String
  | 0, p => [p]
  | fuel + 1, p =>
    if hasSlash p then p :: chainAux fuel (parentPath p) else [p]

def ancChain (p : String) : List String := chainAux p.length p

/-- `Path.mkdir(parents=True, exist_ok=True)` along an ancestor chain,
leaf first, following `pathlib`: an existing directory is fine, an
existing regular file raises, a missing parent is created recursively
first.  The error is `FileExistsError`/`NotADirectoryError`. -/
def mkdirRec (fs : FS) : List String → Except Unit FS
  | [] => .ok fs
  | q :: ups =>
    if dirE fs q then .ok fs
    else if fileE fs q then .error ()
    else if parentPath q = "" || dirE fs (parentPath q) then .ok (addDir fs q)
    else if fileE fs (parentPath q) then .error ()
    else match mkdirRec fs ups with
      | .error e => .error e
      | .ok fs' => .ok (addDir fs' q)

def mkdirP (fs : FS) (p : String) : Except Unit FS := mkdirRec fs (ancChain p)

/-! ## Move-log serialization -/

def MOVE_LOG : String := ".moves.log"

/-- One `f.write(f"{newp}\t{oldp}\n")` line per record. -/
def serializeLog : List (String × String) → String
  | [] => ""
  | pr :: rest => pr.1 ++ "\t" ++ pr.2 ++ "\n" ++ serializeLog rest

/-- Split a character list at `'\n'` into its (always non-empty) list
of segments. -/
def splitSeg : List Char → List (List Char)
  | [] => [[]]
  | c :: rest =>
    let r := splitSeg rest
    if c = '\n' then [] :: r
    else match r with
      | [] => [[c]]
      | s :: ss => (c :: s) :: ss

/-- `str.splitlines()` for `\n`-separated text: the segments between
newlines, without a trailing empty segment (so `""` gives `[]` and a
trailing newline adds no line). -/
def splitlines (s : String) : List String :=
  if ((splitSeg s.data).map String.mk).getLastD "" = "" then
    ((splitSeg s.data).map String.mk).dropLast
  else (splitSeg s.data).map String.mk

theorem splitSeg_ne_nil (l : List Char) : splitSeg l ≠ [] := by
  cases l with
  | nil => simp [splitSeg]
  | cons c rest =>
    simp only [splitSeg]
    by_cases h : c = '\n'
    · simp [h]
    · simp only [h, if_false]
      match splitSeg rest with
      | [] => simp
      | s :: ss => simp

theorem splitSeg_line (line rest : List Char) (h : '\n' ∉ line) :
    splitSeg (line ++ '\n' :: rest) = line :: splitSeg rest := by
  induction line with
  | nil => simp [splitSeg]
  | cons c cs ih =>
    have hc : c ≠ '\n' := by intro hc; exact h (by simp [hc])
    have hcs : '\n' ∉ cs := by intro hm; exact h (by simp [hm])
    simp only [List.cons_append, splitSeg, hc, if_false]
    rw [show cs.append ('\n' :: rest) = cs ++ '\n' :: rest from rfl, ih hcs]

/-- `line.split("\t", 1)` unpacked into two names; `none` models the
`ValueError` raised when the line holds no tab. -/
def splitTab1 (line : String) : Option (String × String) :=
  if line.data.contains '\t' then
    some (String.mk (line.data.takeWhile (fun c => !(c == '\t'))),
          String.mk ((line.data.dropWhile (fun c => !(c == '\t'))).drop 1))
  else none

/-! ## The embedded program (`src/organizer.py`) -/

/-- A compiled classification rule (`Rule` dataclass).  `regex` is the
extensional behaviour of `pattern.search` on a candidate name;
`exts` holds the lowercased list compiled by `compile_rules`, `none`
both for an absent and an empty `if_ext_in` (Python coerces an empty
list with `or None`). -/
structure Rule where
  name : String
  regex : Option (String → Bool)
  exts : Option (List String)
  min_mb : Option ℚ
  max_mb : Option ℚ
  to_category : Option String

/-- The relevant fields of the loaded YAML configuration, after
`load_config`/`compile_rules` (configuration parsing is outside the
specified core).  `exclude` holds the `re.search` behaviour of each
`exclude_regex` pattern on a candidate name. -/
structure Config where
  source_dir : String
  target_dir : String
  extensions : List (String × List String)
  rules : List Rule
  exclude : List (String → Bool)
  bucket_mode : Option String
  unknown_category : Option String

/-- What classification observes about one file: its base name and the
result of `stat` (`none` when the file has vanished). -/
structure FileInfo where
  name : String
  size? : Option ℕ
  mtime? : Option DateTime

/-- `size_mb`: `p.stat().st_size / (1024 * 1024)`, or `0.0` when the
file is missing (`FileNotFoundError`). -/
def size_mb (f : FileInfo) : ℚ :=
  match f.size? with
  | some n => (n : ℚ) / (1024 * 1024)
  | none => 0

/-- `p.suffix.lower().lstrip(".")`. -/
def ruleExt (name : String) : String := lstripDot (strLower (pySuffix name))

/-- `matches_rule`: all specified predicates must hold. -/
def matches_rule (f : FileInfo) (r : Rule) : Bool :=
  if (match r.regex with
      | some rx => !(rx f.name)
      | none => false) then false
  else if (match r.exts with
      | some (e :: es) => !((e :: es).contains (ruleExt f.name))
      | _ => false) then false
  else
    let s := size_mb f
    if (match r.min_mb with
        | some m => decide (s < m)
        | none => false) then false
    else if (match r.max_mb with
        | some M => decide (M < s)
        | none => false) then false
    else true

/-- The rule loop of `pick_category`: first rule that matches and has a
truthy (non-`None`, non-empty) `to_category`. -/
def pickFromRules (f : FileInfo) : List Rule → Option String
  | [] => none
  | r :: rs =>
    if matches_rule f r && !((r.to_category.getD "").isEmpty) then r.to_category
    else pickFromRules f rs

/-- The extension-map loop of `pick_category`: first category, in
insertion order, whose list contains the extension. -/
def pickFromMap (ext : String) : List (String × List String) → Option String
  | [] => none
  | (cat, exts) :: rest =>
    if exts.contains ext then some cat else pickFromMap ext rest

/-- `pick_category(p, cfg, rules)`. -/
def pick_category (f : FileInfo) (cfg : Config) (rules : List Rule) : String :=
  match pickFromRules f rules with
  | some c => c
  | none =>
    match pickFromMap (ruleExt f.name) cfg.extensions with
    | some c => c
    | none => cfg.unknown_category.getD "Other"

/-- `f"{dt:%Y}"`: the year zero-padded to at least four digits. -/
def pad4 (n : ℕ) : String :=
  let s := Nat.repr n
  String.mk (List.replicate (4 - s.length) '0') ++ s

/-- `f"{dt:%m}"`: the month zero-padded to two digits. -/
def pad2 (n : ℕ) : String :=
  let s := Nat.repr n
  String.mk (List.replicate (2 - s.length) '0') ++ s

/-- `with_date_bucket(base, category, cfg, p)`: `now` is the fallback
date when the file cannot be stat'ed. -/
def with_date_bucket (base : String) (category : String) (cfg : Config)
    (f : FileInfo) (now : DateTime) : String :=
  let mode := cfg.bucket_mode.getD "none"
  let dest := joinPath base category
  let dt := f.mtime?.getD now
  if mode = "year" then joinPath dest (pad4 dt.year)
  else if mode = "year_month" then
    joinPath (joinPath dest (pad4 dt.year)) (pad2 dt.month)
  else dest

/-- The candidate `parent / f"{stem} ({i}){suffix}"` tried by
`dedup_path`. -/
def dedupCand (dest : String) (i : ℕ) : String :=
  pjoin (parentPath dest)
    (pyStem (fileName dest) ++ " (" ++ Nat.repr i ++ ")" ++ pySuffix (fileName dest))

/-- The `while True` loop of `dedup_path`; the fuel only bounds the
search and is chosen large enough to be irrelevant (see
`dedupLoop_finds`). -/
def dedupLoop (fs : FS) (dest : String) : ℕ → ℕ → String
  | 0, i => dedupCand dest i
  | fuel + 1, i =>
    if pexists fs (dedupCand dest i) then dedupLoop fs dest fuel (i + 1)
    else dedupCand dest i

/-- `dedup_path(dest)`. -/
def dedup_path (fs : FS) (dest : String) : String :=
  if pexists fs dest then
    dedupLoop fs dest (fs.files.length + fs.dirs.length + 1) 1
  else dest

/-- `should_exclude(p, cfg)`: any pattern searches in the base name. -/
def should_exclude (p : String) (cfg : Config) : Bool :=
  cfg.exclude.any (fun rx => rx (fileName p))

inductive OrgErr where
  | mkdirFailed
  | moveFailed
  | saveFailed
deriving DecidableEq, Repr

/-- `move_file(src, dest, dry, moved)`: create the destination's parent
directories (before the dry-run check), deduplicate, then either just
report (dry) or move and record.  `shutil.move` on a vanished source
raises, modelled by `.error .moveFailed`. -/
def move_file (fs : FS) (src dest : String) (dry : Bool)
    (moved : List (String × String)) :
    Except OrgErr (FS × List (String × String) × String) :=
  match mkdirP fs (parentPath dest) with
  | .error _ => .error .mkdirFailed
  | .ok fs1 =>
    let final := dedup_path fs1 dest
    if dry then .ok (fs1, moved, final)
    else if fileE fs1 src then
      .ok (shutilMoveFs fs1 src final, moved ++ [(final, src)], final)
    else .error .moveFailed

/-- `save_move_log(base, moved)`: no-op on an empty list, else overwrite
`base/.moves.log`.  `open` of a path that is currently a directory
raises `IsADirectoryError`, modelled by `.error .saveFailed`. -/
def save_move_log (fs : FS) (base : String)
    (moved : List (String × String)) : Except OrgErr FS :=
  if moved.isEmpty then .ok fs
  else if dirE fs (joinPath base MOVE_LOG) then .error .saveFailed
  else .ok (writeFile fs (joinPath base MOVE_LOG)
    { content := serializeLog moved, mtime := ⟨0, 0⟩ })

/-- One iteration of the `undo_last` line loop, inside its
`try/except`: parse the two tab-separated paths, recreate the original
parents, move back when the final path still exists.  Any failure
(malformed line, blocked `mkdir`) leaves the state unchanged and
continues. -/
def undoStep (st : FS × ℕ) (line : String) : FS × ℕ :=
  match splitTab1 line with
  | none => st
  | some (newp, oldp) =>
    match mkdirP st.1 (parentPath oldp) with
    | .error _ => st
    | .ok fs1 =>
      if pexists fs1 newp then (shutilMoveFs fs1 newp oldp, st.2 + 1)
      else (fs1, st.2)

/-- `undo_last(base)`: `none` models the `Nothing to undo` report
(`NoLogFound`); otherwise the lines are processed in order and the log
is unlinked regardless of per-line failures, returning `undone`. -/
def undo_last (fs : FS) (base : String) : Option (FS × ℕ) :=
  let log := joinPath base MOVE_LOG
  if pexists fs log then
    let st := (splitlines (readText fs log)).foldl undoStep (fs, 0)
    some (removeFile st.1 log, st.2)
  else none

/-- The stat-derived view of a path used by classification and
bucketing. -/
def statInfo (fs : FS) (p : String) : FileInfo :=
  { name := fileName p,
    size? := (lookupFile fs p).map (fun d => d.content.length),
    mtime? := (lookupFile fs p).map (·.mtime) }

/-- `src.iterdir()`: the immediate entries (files and directories) of a
directory, in listing order. -/
def listdir (fs : FS) (dir : String) : List String :=
  (fs.files.map (·.1) ++ fs.dirs).filter (fun p => parentPath p == dir)

/-- The `for entry in src.iterdir()` loop of `organize_once`, over a
snapshot of the listing: skip non-files and excluded names, then
classify → bucket → move; an uncaught `move_file` exception aborts the
whole loop. -/
def organizeLoop (cfg : Config) (now : DateTime) :
    List String → FS → List (String × String) → ℕ → Bool →
    Except OrgErr (FS × List (String × String) × ℕ)
  | [], fs, mv, c, _ => .ok (fs, mv, c)
  | p :: rest, fs, mv, c, dry =>
    if !(fileE fs p) then organizeLoop cfg now rest fs mv c dry
    else if should_exclude p cfg then organizeLoop cfg now rest fs mv c dry
    else
      let info := statInfo fs p
      let cat := pick_category info cfg cfg.rules
      let destDir := with_date_bucket cfg.target_dir cat cfg info now
      let dest := joinPath destDir (fileName p)
      match move_file fs p dest dry mv with
      | .error e => .error e
      | .ok (fs', mv', _) => organizeLoop cfg now rest fs' mv' (c + 1) dry

/-- `organize_once(cfg, dry)`: run the scan loop, then persist the log
(non-dry only); returns the new filesystem and the processed count. -/
def organize_once (cfg : Config) (now : DateTime) (fs : FS) (dry : Bool) :
    Except OrgErr (FS × ℕ) :=
  match organizeLoop cfg now (listdir fs cfg.source_dir) fs [] 0 dry with
  | .error e => .error e
  | .ok (fs1, moved, count) =>
    if dry then .ok (fs1, count)
    else match save_move_log fs1 cfg.target_dir moved with
      | .error e => .error e
      | .ok fs2 => .ok (fs2, count)

/-! ## C5: rule matching -/

/-- **C5.** A rule matches exactly when all of its specified predicates
hold: the regex (if any) is found by `search` in the base name, the
lowercased dot-stripped extension is in the rule's (non-empty)
extension list if one is given, and the size in megabytes — byte
length over 1,048,576, `0.0` without crashing when the file cannot be
stat'ed — lies inclusively within whichever bounds are present; a rule
with no predicates matches every file. -/
theorem c5_matches_rule_spec (f : FileInfo) (r : Rule) :
    (matches_rule f r = true ↔
      ((∀ rx, r.regex = some rx → rx f.name = true) ∧
       (∀ e es, r.exts = some (e :: es) → ruleExt f.name ∈ e :: es) ∧
       (∀ m, r.min_mb = some m → m ≤ size_mb f) ∧
       (∀ M, r.max_mb = some M → size_mb f ≤ M))) ∧
    (f.size? = none → size_mb f = 0) ∧
    (∀ n, f.size? = some n → size_mb f = (n : ℚ) / 1048576) ∧
    (r.regex = none → r.exts = none → r.min_mb = none → r.max_mb = none →
      matches_rule f r = true) := by
  obtain ⟨nm, rx?, ex?, mn?, mx?, cat?⟩ := r
  refine ⟨?_, ?_, ?_, ?_⟩
  · rcases rx? with _ | rx <;> rcases ex? with _ | ⟨_ | ⟨e, es⟩⟩ <;>
      rcases mn? with _ | m <;> rcases mx? with _ | M <;>
      simp [matches_rule, not_lt]
  · intro h
    simp [size_mb, h]
  · intro n h
    simp [size_mb, h]
    norm_num
  · intro h1 h2 h3 h4
    subst h1; subst h2; subst h3; subst h4
    simp [matches_rule]

theorem c5_matches_rule_spec_witness :
    matches_rule ⟨"big file.bin", some 20971520, none⟩
      ⟨"large", some (fun s => s.data.contains ' '), some ["bin"],
        some 10, some 100, some "Large"⟩ = true :=
  (c5_matches_rule_spec ⟨"big file.bin", some 20971520, none⟩
      ⟨"large", some (fun s => s.data.contains ' '), some ["bin"],
        some 10, some 100, some "Large"⟩).1.mpr
    ⟨by intro rx hrx; cases hrx; rfl,
     by intro e es hes; cases hes; decide,
     by intro m hm; cases hm; simp [size_mb]; norm_num,
     by intro M hM; cases hM; simp [size_mb]; norm_num⟩

/-! ## C4: category selection -/

/-- The `load_config` normalization of the `extensions` map: every
extension list is lowercased, insertion order kept. -/
def loadExtensions (raw : List (String × List String)) :
    List (String × List String) :=
  raw.map (fun pr => (pr.1, pr.2.map strLower))

theorem pickFromRules_eq_find (f : FileInfo) (rules : List Rule) :
    pickFromRules f rules =
      (rules.find? (fun r =>
        matches_rule f r && !((r.to_category.getD "").isEmpty))).map
          (fun r => r.to_category.getD "") := by
  induction rules with
  | nil => rfl
  | cons r rs ih =>
    simp only [pickFromRules, List.find?_cons]
    by_cases h : (matches_rule f r &&
        !((r.to_category.getD "").isEmpty)) = true
    · rw [if_pos h, h]
      simp only [Option.map_some']
      match hc : r.to_category with
      | some c => rfl
      | none =>
        rw [hc] at h
        rw [show (((none : Option String).getD "").isEmpty) = true from rfl]
          at h
        simp at h
    · rw [if_neg (by simpa using h), Bool.of_not_eq_true h, ih]

theorem contains_map_strLower (exts : List String) (ext : String) :
    (exts.map strLower).contains ext =
      exts.any (fun e => strLower e == ext) := by
  rw [List.contains_eq_any_beq, List.any_map]
  have : (fun e => ext == strLower e) = (fun e => strLower e == ext) := by
    funext e
    exact Bool.beq_comm
  rw [Function.comp_def]
  rw [this]

theorem pickFromMap_eq_find (ext : String)
    (raw : List (String × List String)) :
    pickFromMap ext (loadExtensions raw) =
      (raw.find? (fun pr => pr.2.any (fun e => strLower e == ext))).map (·.1) := by
  induction raw with
  | nil => rfl
  | cons pr rest ih =>
    obtain ⟨cat, exts⟩ := pr
    simp only [loadExtensions, List.map_cons] at ih ⊢
    simp only [pickFromMap, List.find?_cons]
    rw [contains_map_strLower]
    by_cases h : (exts.any (fun e => strLower e == ext)) = true
    · rw [h]
      simp [h]
    · rw [Bool.of_not_eq_true h]
      simp only [Bool.of_not_eq_true h]
      exact ih

/-- **C4.** `pick_category` returns the category of the first rule in
configured order that matches and has a truthy (non-empty) category —
rules without one are inert; failing that, the first extension-map
category in insertion order whose (raw, case-insensitively compared)
extension list contains the file's extension; failing that, the
fallback category, defaulting to `"Other"`. -/
theorem c4_pick_category_spec (f : FileInfo) (cfg : Config)
    (rules : List Rule) (raw : List (String × List String))
    (hload : cfg.extensions = loadExtensions raw) :
    pick_category f cfg rules =
      match rules.find? (fun r =>
          matches_rule f r && !((r.to_category.getD "").isEmpty)) with
      | some r => r.to_category.getD ""
      | none =>
        match raw.find? (fun pr =>
            pr.2.any (fun e => strLower e == ruleExt f.name)) with
        | some pr => pr.1
        | none => cfg.unknown_category.getD "Other" := by
  unfold pick_category
  rw [pickFromRules_eq_find, hload, pickFromMap_eq_find]
  match hr : rules.find? (fun r =>
      matches_rule f r && !((r.to_category.getD "").isEmpty)) with
  | some r => rfl
  | none =>
    simp only [Option.map_none']
    match hm : raw.find? (fun pr =>
        pr.2.any (fun e => strLower e == ruleExt f.name)) with
    | some pr => rw [hm]; rfl
    | none => rw [hm]; rfl

theorem c4_pick_category_spec_witness :
    pick_category ⟨"report.PDF", some 100, none⟩
      { source_dir := "s", target_dir := "t",
        extensions := loadExtensions [("Images", ["png"]), ("Documents", ["PDF", "txt"])],
        rules := [⟨"inert", none, none, none, none, none⟩],
        exclude := [], bucket_mode := none, unknown_category := none }
      [⟨"inert", none, none, none, none, none⟩] = "Documents" := by
  rw [c4_pick_category_spec _ _ _
    [("Images", ["png"]), ("Documents", ["PDF", "txt"])] rfl]
  decide

/-! ## C9: date bucketing -/

/-- **C9.** The planned destination directory is `targetRoot/category`
when the bucket mode is `none`, `targetRoot/category/YYYY` (four-digit
year of the file's modification time, or of the current time when the
file cannot be stat'ed) for `year`, and `targetRoot/category/YYYY/MM`
for `year_month`. -/
theorem c9_with_date_bucket_spec (base category : String) (cfg : Config)
    (f : FileInfo) (now : DateTime) :
    (cfg.bucket_mode.getD "none" = "none" →
      with_date_bucket base category cfg f now = joinPath base category) ∧
    (cfg.bucket_mode.getD "none" = "year" →
      with_date_bucket base category cfg f now =
        joinPath (joinPath base category) (pad4 (f.mtime?.getD now).year)) ∧
    (cfg.bucket_mode.getD "none" = "year_month" →
      with_date_bucket base category cfg f now =
        joinPath (joinPath (joinPath base category)
          (pad4 (f.mtime?.getD now).year)) (pad2 (f.mtime?.getD now).month)) ∧
    (f.mtime? = none → (f.mtime?.getD now) = now) ∧
    (∀ y, y ≤ 9999 → (pad4 y).length = 4) := by
  refine ⟨?_, ?_, ?_, ?_, ?_⟩
  · intro h
    simp [with_date_bucket, h]
  · intro h
    simp [with_date_bucket, h]
  · intro h
    simp [with_date_bucket, h]
  · intro h
    simp [h]
  · intro y hy
    have hlen : (Nat.repr y).length ≤ 4 :=
      Nat.repr_length y 4 (by omega) (by omega)
    have hlen1 : 1 ≤ (Nat.repr y).length := by
      have hd : (Nat.repr y).data ≠ [] := by
        intro hd
        have hz : Nat.toDigits 10 y = [] := by
          simpa [Nat.repr, List.asString] using hd
        have h2 := parse_toDigits y
        rw [show Nat.toDigitsCore 10 (y + 1) y [] = Nat.toDigits 10 y from
          rfl, hz] at h2
        rw [show parseDigits [] = 0 from rfl] at h2
        subst h2
        simp [Nat.toDigits, Nat.toDigitsCore] at hz
      show 1 ≤ (Nat.repr y).data.length
      cases hdd : (Nat.repr y).data with
      | nil => exact absurd hdd hd
      | cons a as => simp
    simp only [pad4, String.length_append]
    rw [show (String.mk (List.replicate (4 - (Nat.repr y).length) '0')).length
      = 4 - (Nat.repr y).length from by
        show (List.replicate (4 - (Nat.repr y).length) '0').length = _
        simp]
    omega

theorem c9_with_date_bucket_spec_witness :
    with_date_bucket "t" "Documents"
      { source_dir := "s", target_dir := "t", extensions := [],
        rules := [], exclude := [], bucket_mode := some "year",
        unknown_category := none }
      ⟨"report.pdf", some 2097152, some ⟨2026, 10⟩⟩ ⟨2026, 10⟩ =
      joinPath (joinPath "t" "Documents") (pad4 2026) :=
  (c9_with_date_bucket_spec "t" "Documents"
      { source_dir := "s", target_dir := "t", extensions := [],
        rules := [], exclude := [], bucket_mode := some "year",
        unknown_category := none }
      ⟨"report.pdf", some 2097152, some ⟨2026, 10⟩⟩ ⟨2026, 10⟩).2.1 rfl

theorem splitSeg_serialize (moved : List (String × String))
    (h : ∀ pr ∈ moved, '\n' ∉ pr.1.data ∧ '\n' ∉ pr.2.data) :
    splitSeg (serializeLog moved).data =
      (moved.map (fun pr => (pr.1 ++ "\t" ++ pr.2).data)) ++ [[]] := by
  induction moved with
  | nil => rfl
  | cons pr rest ih =>
    have hline : '\n' ∉ (pr.1 ++ "\t" ++ pr.2).data := by
      obtain ⟨h1, h2⟩ := h pr (by simp)
      simp only [String.data_append]
      intro hm
      rcases List.mem_append.mp hm with hm | hm
      · rcases List.mem_append.mp hm with hm | hm
        · exact h1 hm
        · simp at hm
      · exact h2 hm
    have hdata : (serializeLog (pr :: rest)).data =
        (pr.1 ++ "\t" ++ pr.2).data ++ '\n' :: (serializeLog rest).data := by
      show (pr.1 ++ "\t" ++ pr.2 ++ "\n" ++ serializeLog rest).data = _
      simp [String.data_append]
    rw [hdata, splitSeg_line _ _ hline,
      ih (fun q hq => h q (by simp [hq]))]
    rfl

theorem splitlines_serialize (moved : List (String × String))
    (h : ∀ pr ∈ moved, '\n' ∉ pr.1.data ∧ '\n' ∉ pr.2.data) :
    splitlines (serializeLog moved) =
      moved.map (fun pr => pr.1 ++ "\t" ++ pr.2) := by
  unfold splitlines
  rw [splitSeg_serialize moved h, List.map_append]
  rw [show List.map String.mk [([] : List Char)] = [""] from rfl]
  rw [List.getLastD_concat, if_pos rfl, List.dropLast_concat, List.map_map]
  have : (String.mk ∘ fun pr => (pr.1 ++ "\t" ++ pr.2).data) =
      (fun pr : String × String => pr.1 ++ "\t" ++ pr.2) := by
    funext pr
    rfl
  rw [this]

/-! ## Basic facts about the filesystem primitives -/

theorem lookupFile_writeFile_self (fs : FS) (p : String) (d : FData) :
    lookupFile (writeFile fs p d) p = some d := by
  simp [lookupFile, writeFile]

theorem find?_filter_ne (l : List (String × FData)) (p q : String)
    (h : q ≠ p) :
    (l.filter (fun e => !(e.1 == p))).find? (fun e => e.1 == q) =
      l.find? (fun e => e.1 == q) := by
  induction l with
  | nil => rfl
  | cons e rest ih =>
    rw [List.filter_cons]
    by_cases hp : e.1 = p
    · rw [if_neg (by simp [hp])]
      rw [List.find?_cons_of_neg _ (by
        simp [hp]
        exact fun hq => h hq.symm)]
      exact ih
    · rw [if_pos (by simp [hp])]
      by_cases he : e.1 = q
      · rw [List.find?_cons_of_pos _ (by simp [he]),
          List.find?_cons_of_pos _ (by simp [he])]
      · rw [List.find?_cons_of_neg _ (by simp [he]),
          List.find?_cons_of_neg _ (by simp [he])]
        exact ih

theorem lookupFile_writeFile_ne (fs : FS) (p q : String) (d : FData)
    (h : q ≠ p) : lookupFile (writeFile fs p d) q = lookupFile fs q := by
  simp only [lookupFile, writeFile]
  rw [List.find?_cons_of_neg _ (by
    simp
    exact fun hq => h hq.symm)]
  rw [find?_filter_ne fs.files p q h]

theorem lookupFile_removeFile_self (fs : FS) (p : String) :
    lookupFile (removeFile fs p) p = none := by
  simp only [lookupFile, removeFile]
  rw [show (List.find? (fun e => e.1 == p)
      (fs.files.filter (fun e => !(e.1 == p)))) = none from ?_]
  · rfl
  · apply List.find?_eq_none.mpr
    intro e he
    have := (List.mem_filter.mp he).2
    simpa using this

theorem lookupFile_removeFile_ne (fs : FS) (p q : String) (h : q ≠ p) :
    lookupFile (removeFile fs p) q = lookupFile fs q := by
  simp only [lookupFile, removeFile]
  rw [find?_filter_ne fs.files p q h]

/-! ## C8: persisting the move log -/

/-- **C8.** `save_move_log` is a no-op on an empty record list (neither
creating nor overwriting the log); otherwise it writes, to
`.moves.log` directly inside the target root, exactly one line per
record in order, formatted `finalPath TAB originalPath`, replacing any
prior log content and touching no other file and no directory. -/
theorem c8_save_move_log_spec (fs : FS) (base : String)
    (moved : List (String × String)) :
    (moved = [] → save_move_log fs base moved = .ok fs) ∧
    ((∀ pr ∈ moved, '\n' ∉ pr.1.data ∧ '\n' ∉ pr.2.data) → moved ≠ [] →
      dirE fs (joinPath base MOVE_LOG) = false →
      ∃ fs', save_move_log fs base moved = .ok fs' ∧
        splitlines (readText fs' (joinPath base MOVE_LOG)) =
          moved.map (fun pr => pr.1 ++ "\t" ++ pr.2) ∧
        (lookupFile fs' (joinPath base MOVE_LOG)).map (·.content) =
          some (serializeLog moved) ∧
        fs'.dirs = fs.dirs ∧
        (∀ q, q ≠ joinPath base MOVE_LOG →
          lookupFile fs' q = lookupFile fs q)) := by
  constructor
  · intro h
    subst h
    rfl
  · intro hnl hne hdir
    refine ⟨writeFile fs (joinPath base MOVE_LOG)
      { content := serializeLog moved, mtime := ⟨0, 0⟩ }, ?_, ?_, ?_, ?_, ?_⟩
    · unfold save_move_log
      rw [if_neg (by simpa [List.isEmpty_iff] using hne), hdir]
      rfl
    · rw [show readText (writeFile fs (joinPath base MOVE_LOG)
          { content := serializeLog moved, mtime := ⟨0, 0⟩ })
          (joinPath base MOVE_LOG) = serializeLog moved from by
        simp [readText, lookupFile_writeFile_self]]
      exact splitlines_serialize moved hnl
    · rw [lookupFile_writeFile_self]
      rfl
    · rfl
    · intro q hq
      exact lookupFile_writeFile_ne fs _ q _ hq

theorem c8_save_move_log_spec_witness :
    save_move_log ⟨[], ["t"]⟩ "t" [] = .ok ⟨[], ["t"]⟩ ∧
    ∃ fs', save_move_log ⟨[], ["t"]⟩ "t" [("t/D/a.txt", "s/a.txt")] = .ok fs' ∧
      splitlines (readText fs' (joinPath "t" MOVE_LOG)) =
        [("t/D/a.txt", "s/a.txt")].map (fun pr => pr.1 ++ "\t" ++ pr.2) ∧
      (lookupFile fs' (joinPath "t" MOVE_LOG)).map (·.content) =
        some (serializeLog [("t/D/a.txt", "s/a.txt")]) ∧
      fs'.dirs = (⟨[], ["t"]⟩ : FS).dirs ∧
      (∀ q, q ≠ joinPath "t" MOVE_LOG →
        lookupFile fs' q = lookupFile ⟨[], ["t"]⟩ q) :=
  ⟨(c8_save_move_log_spec ⟨[], ["t"]⟩ "t" []).1 rfl,
   (c8_save_move_log_spec ⟨[], ["t"]⟩ "t" [("t/D/a.txt", "s/a.txt")]).2
     (by decide) (by decide) (by decide)⟩

/-! ## C1: dry run — and C2: per-file failure handling -/

/-- **C1 (code bug).** The claim says a dry-run move performs no
filesystem mutation.  It does report the would-be final path and
records nothing, but `move_file` calls
`dest.parent.mkdir(parents=True, exist_ok=True)` *before* checking
`dry`, so a dry run creates the destination's parent directories: on
this input the directory `t/Docs` does not exist beforehand and exists
afterwards. -/
theorem c1_dry_run_creates_directories :
    ∃ fs', move_file ⟨[("s/a.txt", ⟨"x", ⟨2024, 1⟩⟩)], ["s", "t"]⟩
        "s/a.txt" "t/Docs/a.txt" true [] = .ok (fs', [], "t/Docs/a.txt") ∧
      "t/Docs" ∈ fs'.dirs ∧
      "t/Docs" ∉ (⟨[("s/a.txt", ⟨"x", ⟨2024, 1⟩⟩)], ["s", "t"]⟩ : FS).dirs ∧
      fs'.files = [("s/a.txt", ⟨"x", ⟨2024, 1⟩⟩)] :=
  ⟨⟨[("s/a.txt", ⟨"x", ⟨2024, 1⟩⟩)], ["t/Docs", "s", "t"]⟩,
    rfl, by decide, by decide, rfl⟩

/-- **C2 (code bug).** The claim (and the spec) say a failure to move a
single file is caught and never aborts the batch.  But the scan loop
of `organize_once` has no `try/except`: here the first file `s/a.txt`
classifies to `Other` whose destination directory `t/Other` is blocked
by a regular file, `mkdir` raises, the exception propagates out of
`organize_once` — the remaining file `s/b.txt` is never processed and
no move log is persisted. -/
theorem c2_per_file_failure_aborts_batch :
    organize_once
      { source_dir := "s", target_dir := "t", extensions := [],
        rules := [], exclude := [], bucket_mode := none,
        unknown_category := none }
      ⟨2026, 1⟩
      ⟨[("s/a.txt", ⟨"aa", ⟨2024, 1⟩⟩), ("s/b.txt", ⟨"bb", ⟨2024, 2⟩⟩),
        ("t/Other", ⟨"blocker", ⟨2020, 1⟩⟩)], ["s", "t"]⟩
      false = .error .mkdirFailed := by
  rfl

/-! ## C6: deduplication -/

theorem str_ext (a b : String) (h : a.data = b.data) : a = b := by
  cases a
  cases b
  exact congrArg String.mk h

theorem dedupCand_injective (dest : String) (i j : ℕ)
    (h : dedupCand dest i = dedupCand dest j) : i = j := by
  unfold dedupCand pjoin at h
  have hname : pyStem (fileName dest) ++ " (" ++ Nat.repr i ++ ")" ++
      pySuffix (fileName dest) =
      pyStem (fileName dest) ++ " (" ++ Nat.repr j ++ ")" ++
      pySuffix (fileName dest) := by
    by_cases hp : parentPath dest = ""
    · simpa [hp] using h
    · rw [if_neg hp, if_neg hp] at h
      have hdj := congrArg String.data h
      rw [data_append_slash, data_append_slash] at hdj
      have := List.append_inj_right hdj rfl
      exact str_ext _ _ (List.cons_injective this)
  have hdata := congrArg String.data hname
  simp only [String.data_append] at hdata
  rw [List.append_assoc, List.append_assoc, List.append_assoc,
    List.append_assoc, List.append_assoc, List.append_assoc] at hdata
  have h1 : (Nat.repr i).data ++ ((")" : String).data ++
      (pySuffix (fileName dest)).data) = (Nat.repr j).data ++
      ((")" : String).data ++ (pySuffix (fileName dest)).data) :=
    List.append_inj_right (List.append_inj_right hdata rfl) rfl
  have h2 : (Nat.repr i).data = (Nat.repr j).data :=
    List.append_inj_left' h1 rfl
  exact natRepr_injective i j (str_ext _ _ h2)

theorem mem_of_fileE (fs : FS) (p : String) (h : fileE fs p = true) :
    p ∈ fs.files.map (·.1) := by
  simp only [fileE, lookupFile, Option.isSome_map'] at h
  obtain ⟨e, he⟩ := Option.isSome_iff_exists.mp h
  have hmem := List.mem_of_find?_eq_some he
  have hpred := List.find?_some he
  simp only [beq_iff_eq] at hpred
  exact hpred ▸ List.mem_map_of_mem _ hmem

theorem mem_of_pexists (fs : FS) (p : String) (h : pexists fs p = true) :
    p ∈ fs.files.map (·.1) ++ fs.dirs := by
  rcases Bool.or_eq_true_iff.mp h with h | h
  · exact List.mem_append.mpr (Or.inl (mem_of_fileE fs p h))
  · refine List.mem_append.mpr (Or.inr ?_)
    simp only [dirE, List.contains_eq_any_beq, List.any_eq_true] at h
    obtain ⟨x, hx, he⟩ := h
    simp only [beq_iff_eq] at he
    exact he ▸ hx

/-- Some candidate with index in `[1, |files| + |dirs| + 1]` is free:
the candidates are pairwise distinct, so they cannot all denote
existing paths. -/
theorem exists_free_cand (fs : FS) (dest : String) :
    ∃ j, 1 ≤ j ∧ j ≤ fs.files.length + fs.dirs.length + 1 ∧
      pexists fs (dedupCand dest j) = false := by
  by_contra hall
  push_neg at hall
  have hall' : ∀ j, 1 ≤ j → j ≤ fs.files.length + fs.dirs.length + 1 →
      pexists fs (dedupCand dest j) = true := by
    intro j h1 h2
    have := hall j h1 h2
    simpa using this
  set K := fs.files.length + fs.dirs.length with hK
  set cl := (List.range (K + 1)).map (fun k => dedupCand dest (k + 1))
    with hcl
  have hnd : cl.Nodup := by
    refine List.Nodup.map ?_ (List.nodup_range (K + 1))
    intro a b hab
    have := dedupCand_injective dest (a + 1) (b + 1) hab
    omega
  have hsub : cl ⊆ fs.files.map (·.1) ++ fs.dirs := by
    intro x hx
    rw [hcl] at hx
    obtain ⟨k, hk, rfl⟩ := List.mem_map.mp hx
    have hkr := List.mem_range.mp hk
    exact mem_of_pexists fs _ (hall' (k + 1) (by omega) (by omega))
  have hle := (List.subperm_of_subset hnd hsub).length_le
  rw [hcl] at hle
  simp only [List.length_map, List.length_range, List.length_append] at hle
  omega

theorem dedupLoop_finds (fs : FS) (dest : String) :
    ∀ fuel i, (∃ j, i ≤ j ∧ j ≤ i + fuel ∧
        pexists fs (dedupCand dest j) = false) →
      ∃ N, i ≤ N ∧ dedupLoop fs dest fuel i = dedupCand dest N ∧
        pexists fs (dedupCand dest N) = false ∧
        ∀ m, i ≤ m → m < N → pexists fs (dedupCand dest m) = true := by
  intro fuel
  induction fuel with
  | zero =>
    rintro i ⟨j, hj1, hj2, hj3⟩
    have hji : j = i := by omega
    subst hji
    exact ⟨j, le_refl j, rfl, hj3, fun m h1 h2 => absurd h1 (by omega)⟩
  | succ fuel ih =>
    rintro i ⟨j, hj1, hj2, hj3⟩
    by_cases hi : pexists fs (dedupCand dest i) = true
    · have hji : i < j := by
        rcases Nat.lt_or_ge i j with h | h
        · exact h
        · have : j = i := by omega
          subst this
          rw [hi] at hj3
          exact absurd hj3 (by simp)
      obtain ⟨N, hN1, hN2, hN3, hN4⟩ := ih (i + 1) ⟨j, by omega, by omega, hj3⟩
      refine ⟨N, by omega, ?_, hN3, ?_⟩
      · rw [show dedupLoop fs dest (fuel + 1) i =
          dedupLoop fs dest fuel (i + 1) from by
            simp [dedupLoop, hi]]
        exact hN2
      · intro m h1 h2
        rcases Nat.eq_or_lt_of_le h1 with h | h
        · exact h ▸ hi
        · exact hN4 m (by omega) h2
    · refine ⟨i, le_refl i, ?_, by simpa using hi,
        fun m h1 h2 => absurd h1 (by omega)⟩
      simp only [dedupLoop]
      rw [if_neg hi]

/-- **C6.** `dedup_path` returns the destination unchanged when it does
not exist; otherwise it returns the candidate with `" (N)"` inserted
before the extension for the smallest `N ≥ 1` whose candidate does not
exist — every smaller index ≥ 1 is an existing path — and such an `N`
is always reached because the finitely many existing paths cannot
exhaust the pairwise-distinct candidates. -/
theorem c6_dedup_path_spec (fs : FS) (dest : String) :
    (pexists fs dest = false → dedup_path fs dest = dest) ∧
    (pexists fs dest = true →
      ∃ N, 1 ≤ N ∧ dedup_path fs dest = dedupCand dest N ∧
        pexists fs (dedupCand dest N) = false ∧
        ∀ m, 1 ≤ m → m < N → pexists fs (dedupCand dest m) = true) := by
  constructor
  · intro h
    simp [dedup_path, h]
  · intro h
    obtain ⟨j, hj1, hj2, hj3⟩ := exists_free_cand fs dest
    obtain ⟨N, hN1, hN2, hN3, hN4⟩ := dedupLoop_finds fs dest
      (fs.files.length + fs.dirs.length + 1) 1 ⟨j, hj1, by omega, hj3⟩
    refine ⟨N, hN1, ?_, hN3, fun m h1 h2 => hN4 m h1 h2⟩
    rw [dedup_path, if_pos h]
    exact hN2

theorem c6_dedup_path_spec_witness :
    ∃ N, 1 ≤ N ∧
      dedup_path ⟨[("t/a.txt", ⟨"x", ⟨2024, 1⟩⟩),
        ("t/a (1).txt", ⟨"y", ⟨2024, 1⟩⟩)], ["t"]⟩ "t/a.txt" =
        dedupCand "t/a.txt" N ∧
      pexists ⟨[("t/a.txt", ⟨"x", ⟨2024, 1⟩⟩),
        ("t/a (1).txt", ⟨"y", ⟨2024, 1⟩⟩)], ["t"]⟩
        (dedupCand "t/a.txt" N) = false ∧
      ∀ m, 1 ≤ m → m < N →
        pexists ⟨[("t/a.txt", ⟨"x", ⟨2024, 1⟩⟩),
          ("t/a (1).txt", ⟨"y", ⟨2024, 1⟩⟩)], ["t"]⟩
          (dedupCand "t/a.txt" m) = true :=
  (c6_dedup_path_spec ⟨[("t/a.txt", ⟨"x", ⟨2024, 1⟩⟩),
    ("t/a (1).txt", ⟨"y", ⟨2024, 1⟩⟩)], ["t"]⟩ "t/a.txt").2 (by decide)

/-! ## C10: a zero-move run does not clobber an earlier log -/

theorem organizeLoop_count (cfg : Config) (now : DateTime)
    (entries : List String) :
    ∀ fs mv c dry fs1 mv1 n,
      organizeLoop cfg now entries fs mv c dry = .ok (fs1, mv1, n) →
      c ≤ n ∧ (n = c → fs1 = fs ∧ mv1 = mv) := by
  induction entries with
  | nil =>
    intro fs mv c dry fs1 mv1 n h
    simp only [organizeLoop, Except.ok.injEq, Prod.mk.injEq] at h
    obtain ⟨h1, h2, h3⟩ := h
    exact ⟨h3 ▸ le_refl c, fun _ => ⟨h1.symm, h2.symm⟩⟩
  | cons p rest ih =>
    intro fs mv c dry fs1 mv1 n h
    simp only [organizeLoop] at h
    by_cases hf : fileE fs p = true
    · rw [hf] at h
      simp only [Bool.not_true, Bool.false_eq_true, if_false] at h
      by_cases he : should_exclude p cfg = true
      · rw [if_pos he] at h
        exact ih fs mv c dry fs1 mv1 n h
      · rw [if_neg he] at h
        cases hm : move_file fs p
            (joinPath (with_date_bucket cfg.target_dir
              (pick_category (statInfo fs p) cfg cfg.rules) cfg
              (statInfo fs p) now) (fileName p)) dry mv with
        | error e => rw [hm] at h; cases h
        | ok tri =>
          rw [hm] at h
          obtain ⟨fs', mv', fin⟩ := tri
          have := ih fs' mv' (c + 1) dry fs1 mv1 n h
          exact ⟨by omega, fun hn => absurd hn (by omega)⟩
    · rw [Bool.of_not_eq_true hf] at h
      simp only [Bool.not_false, if_true] at h
      exact ih fs mv c dry fs1 mv1 n h

/-- **C10.** A non-dry one-shot run that moves zero files changes the
filesystem not at all — in particular an earlier `.moves.log` inside
the target root stays byte-for-byte unchanged — so a subsequent undo
sees exactly the earlier run's log (and does not report
`NoLogFound`). -/
theorem c10_zero_move_run_preserves_log (cfg : Config) (now : DateTime)
    (fs fs1 : FS)
    (h : organize_once cfg now fs false = .ok (fs1, 0)) :
    fs1 = fs ∧
    lookupFile fs1 (joinPath cfg.target_dir MOVE_LOG) =
      lookupFile fs (joinPath cfg.target_dir MOVE_LOG) ∧
    undo_last fs1 cfg.target_dir = undo_last fs cfg.target_dir ∧
    (fileE fs (joinPath cfg.target_dir MOVE_LOG) = true →
      (undo_last fs1 cfg.target_dir).isSome = true) := by
  have hfs : fs1 = fs := by
    unfold organize_once at h
    cases hl : organizeLoop cfg now (listdir fs cfg.source_dir) fs [] 0 false
      with
    | error e => rw [hl] at h; cases h
    | ok tri =>
      rw [hl] at h
      obtain ⟨fsL, moved, count⟩ := tri
      have hc := organizeLoop_count cfg now (listdir fs cfg.source_dir)
        fs [] 0 false fsL moved count hl
      simp only [if_false, Bool.false_eq_true] at h
      cases hs : save_move_log fsL cfg.target_dir moved with
      | error e => rw [hs] at h; cases h
      | ok fs2 =>
        rw [hs] at h
        simp only [Except.ok.injEq, Prod.mk.injEq] at h
        obtain ⟨h1, h2⟩ := h
        obtain ⟨hfsL, hmv⟩ := hc.2 h2
        rw [hmv, hfsL] at hs
        rw [show save_move_log fs cfg.target_dir [] = .ok fs from rfl] at hs
        injection hs with hs2
        rw [← h1, ← hs2]
  refine ⟨hfs, by rw [hfs], by rw [hfs], ?_⟩
  intro hlog
  rw [hfs]
  unfold undo_last
  rw [if_pos (by simp [pexists, hlog])]
  rfl

theorem c10_zero_move_run_preserves_log_witness :
    (⟨[("t/.moves.log", ⟨"t/D/f.txt\ts/f.txt\n", ⟨2024, 1⟩⟩),
       ("t/D/f.txt", ⟨"zz", ⟨2024, 1⟩⟩)], ["s", "t", "t/D"]⟩ : FS) =
      ⟨[("t/.moves.log", ⟨"t/D/f.txt\ts/f.txt\n", ⟨2024, 1⟩⟩),
       ("t/D/f.txt", ⟨"zz", ⟨2024, 1⟩⟩)], ["s", "t", "t/D"]⟩ ∧
    lookupFile ⟨[("t/.moves.log", ⟨"t/D/f.txt\ts/f.txt\n", ⟨2024, 1⟩⟩),
       ("t/D/f.txt", ⟨"zz", ⟨2024, 1⟩⟩)], ["s", "t", "t/D"]⟩
      (joinPath "t" MOVE_LOG) =
    lookupFile ⟨[("t/.moves.log", ⟨"t/D/f.txt\ts/f.txt\n", ⟨2024, 1⟩⟩),
       ("t/D/f.txt", ⟨"zz", ⟨2024, 1⟩⟩)], ["s", "t", "t/D"]⟩
      (joinPath "t" MOVE_LOG) ∧
    undo_last ⟨[("t/.moves.log", ⟨"t/D/f.txt\ts/f.txt\n", ⟨2024, 1⟩⟩),
       ("t/D/f.txt", ⟨"zz", ⟨2024, 1⟩⟩)], ["s", "t", "t/D"]⟩ "t" =
    undo_last ⟨[("t/.moves.log", ⟨"t/D/f.txt\ts/f.txt\n", ⟨2024, 1⟩⟩),
       ("t/D/f.txt", ⟨"zz", ⟨2024, 1⟩⟩)], ["s", "t", "t/D"]⟩ "t" ∧
    (fileE ⟨[("t/.moves.log", ⟨"t/D/f.txt\ts/f.txt\n", ⟨2024, 1⟩⟩),
       ("t/D/f.txt", ⟨"zz", ⟨2024, 1⟩⟩)], ["s", "t", "t/D"]⟩
      (joinPath "t" MOVE_LOG) = true →
      (undo_last ⟨[("t/.moves.log", ⟨"t/D/f.txt\ts/f.txt\n", ⟨2024, 1⟩⟩),
       ("t/D/f.txt", ⟨"zz", ⟨2024, 1⟩⟩)], ["s", "t", "t/D"]⟩ "t").isSome
        = true) :=
  c10_zero_move_run_preserves_log
    { source_dir := "s", target_dir := "t", extensions := [], rules := [],
      exclude := [], bucket_mode := none, unknown_category := none }
    ⟨2026, 1⟩
    ⟨[("t/.moves.log", ⟨"t/D/f.txt\ts/f.txt\n", ⟨2024, 1⟩⟩),
       ("t/D/f.txt", ⟨"zz", ⟨2024, 1⟩⟩)], ["s", "t", "t/D"]⟩
    ⟨[("t/.moves.log", ⟨"t/D/f.txt\ts/f.txt\n", ⟨2024, 1⟩⟩),
       ("t/D/f.txt", ⟨"zz", ⟨2024, 1⟩⟩)], ["s", "t", "t/D"]⟩
    rfl

/-! ## Facts about `shutilMoveFs` on a regular-file source -/

theorem find?_filter_keep (l : List (String × FData))
    (pred : String × FData → Bool) (q : String)
    (hq : ∀ e : String × FData, e.1 = q → pred e = true) :
    (l.filter pred).find? (fun e => e.1 == q) =
      l.find? (fun e => e.1 == q) := by
  induction l with
  | nil => rfl
  | cons e rest ih =>
    rw [List.filter_cons]
    by_cases he : e.1 = q
    · rw [if_pos (hq e he)]
      rw [List.find?_cons_of_pos _ (by simp [he]),
        List.find?_cons_of_pos _ (by simp [he])]
    · by_cases hp : pred e = true
      · rw [if_pos hp]
        rw [List.find?_cons_of_neg _ (by simp [he]),
          List.find?_cons_of_neg _ (by simp [he])]
        exact ih
      · rw [if_neg hp, List.find?_cons_of_neg _ (by simp [he])]
        exact ih

theorem shutilMove_file_eq (fs : FS) (np op : String) (d : FData)
    (hnp : lookupFile fs np = some d) (hdir : dirE fs op = false) :
    shutilMoveFs fs np op =
      { fs with files := (op, d) ::
        (fs.files.filter (fun e => !(e.1 == np) && !(e.1 == op))) } := by
  unfold shutilMoveFs
  rw [hdir]
  simp only [if_false, Bool.false_eq_true]
  rw [hnp]

theorem shutilMove_lookup_dst (fs : FS) (np op : String) (d : FData)
    (hnp : lookupFile fs np = some d) (hdir : dirE fs op = false) :
    lookupFile (shutilMoveFs fs np op) op = some d := by
  rw [shutilMove_file_eq fs np op d hnp hdir]
  simp only [lookupFile]
  rw [List.find?_cons_of_pos _ (by simp)]
  rfl

theorem shutilMove_lookup_src (fs : FS) (np op : String) (d : FData)
    (hnp : lookupFile fs np = some d) (hdir : dirE fs op = false)
    (hne : np ≠ op) :
    lookupFile (shutilMoveFs fs np op) np = none := by
  rw [shutilMove_file_eq fs np op d hnp hdir]
  simp only [lookupFile]
  rw [List.find?_cons_of_neg _ (by
    simp
    exact fun hq => hne hq.symm)]
  rw [show (List.find? (fun e => e.1 == np)
      (fs.files.filter (fun e => !(e.1 == np) && !(e.1 == op)))) = none
    from ?_]
  · rfl
  · apply List.find?_eq_none.mpr
    intro e he hbeq
    have hf := (List.mem_filter.mp he).2
    simp only [beq_iff_eq] at hbeq
    simp [hbeq] at hf

theorem shutilMove_lookup_other (fs : FS) (np op q : String) (d : FData)
    (hnp : lookupFile fs np = some d) (hdir : dirE fs op = false)
    (hq1 : q ≠ np) (hq2 : q ≠ op) :
    lookupFile (shutilMoveFs fs np op) q = lookupFile fs q := by
  rw [shutilMove_file_eq fs np op d hnp hdir]
  simp only [lookupFile]
  rw [List.find?_cons_of_neg _ (by
    simp
    exact fun hq => hq2 hq.symm)]
  rw [find?_filter_keep _ _ q (by
    intro e he
    simp [he]
    exact ⟨hq1, hq2⟩)]

theorem shutilMove_file_dirs (fs : FS) (np op : String) (d : FData)
    (hnp : lookupFile fs np = some d) (hdir : dirE fs op = false) :
    (shutilMoveFs fs np op).dirs = fs.dirs := by
  rw [shutilMove_file_eq fs np op d hnp hdir]

/-! ## C7: undo line processing -/

/-- **C7 (counterexample).** The claim says every log line whose final
path currently exists has that file moved back and bumps
`undoneCount`.  Not quite: the per-line `try` block runs
`oldp.parent.mkdir(parents=True, exist_ok=True)` first, and when the
original's parent is blocked by a regular file (here `block`) that
`mkdir` raises, the `except` swallows it and the line is skipped even
though the final path `t/D/f.txt` exists — `undoneCount` stays `0` and
the file is not moved back. -/
theorem c7_undo_counterexample :
    undo_last ⟨[("t/.moves.log", ⟨"t/D/f.txt\tblock/f.txt\n", ⟨2024, 1⟩⟩),
        ("t/D/f.txt", ⟨"xx", ⟨2024, 1⟩⟩), ("block", ⟨"b", ⟨2024, 1⟩⟩)],
        ["t", "t/D"]⟩ "t" =
      some (⟨[("t/D/f.txt", ⟨"xx", ⟨2024, 1⟩⟩),
        ("block", ⟨"b", ⟨2024, 1⟩⟩)], ["t", "t/D"]⟩, 0) ∧
    pexists ⟨[("t/.moves.log", ⟨"t/D/f.txt\tblock/f.txt\n", ⟨2024, 1⟩⟩),
        ("t/D/f.txt", ⟨"xx", ⟨2024, 1⟩⟩), ("block", ⟨"b", ⟨2024, 1⟩⟩)],
        ["t", "t/D"]⟩ "t/D/f.txt" = true ∧
    lookupFile ⟨[("t/D/f.txt", ⟨"xx", ⟨2024, 1⟩⟩),
        ("block", ⟨"b", ⟨2024, 1⟩⟩)], ["t", "t/D"]⟩ "block/f.txt" = none :=
  ⟨rfl, by decide, rfl⟩

/-- **C7 (amended).** `undo_last` processes the persisted lines in
written order via a fold of `undoStep` and deletes the log afterwards
regardless of per-line outcomes; a line whose tab-separated final path
exists — *and whose original's parent directories can be recreated* —
has that file moved back to the original path and increments
`undoneCount`; a malformed line, a line whose final path is missing,
or a line whose parent re-creation fails, is skipped non-fatally and
processing continues with the state it left behind. -/
theorem c7_undo_line_spec :
    (∀ st line, splitTab1 line = none → undoStep st line = st) ∧
    (∀ (st : FS × ℕ) line np op, splitTab1 line = some (np, op) →
      mkdirP st.1 (parentPath op) = .error () → undoStep st line = st) ∧
    (∀ (st : FS × ℕ) line np op fs1, splitTab1 line = some (np, op) →
      mkdirP st.1 (parentPath op) = .ok fs1 → pexists fs1 np = false →
      undoStep st line = (fs1, st.2)) ∧
    (∀ (st : FS × ℕ) line np op fs1, splitTab1 line = some (np, op) →
      mkdirP st.1 (parentPath op) = .ok fs1 → pexists fs1 np = true →
      undoStep st line = (shutilMoveFs fs1 np op, st.2 + 1)) ∧
    (∀ fs np op d, lookupFile fs np = some d → dirE fs op = false →
      np ≠ op →
      lookupFile (shutilMoveFs fs np op) op = some d ∧
      lookupFile (shutilMoveFs fs np op) np = none) ∧
    (∀ fs base, pexists fs (joinPath base MOVE_LOG) = false →
      undo_last fs base = none) ∧
    (∀ fs base, pexists fs (joinPath base MOVE_LOG) = true →
      undo_last fs base =
        some (removeFile ((splitlines (readText fs (joinPath base
            MOVE_LOG))).foldl undoStep (fs, 0)).1 (joinPath base MOVE_LOG),
          ((splitlines (readText fs (joinPath base MOVE_LOG))).foldl
            undoStep (fs, 0)).2) ∧
      ∀ fs' c, undo_last fs base = some (fs', c) →
        lookupFile fs' (joinPath base MOVE_LOG) = none) := by
  refine ⟨?_, ?_, ?_, ?_, ?_, ?_, ?_⟩
  · intro st line h
    simp [undoStep, h]
  · intro st line np op h1 h2
    simp [undoStep, h1, h2]
  · intro st line np op fs1 h1 h2 h3
    simp [undoStep, h1, h2, h3]
  · intro st line np op fs1 h1 h2 h3
    simp [undoStep, h1, h2, h3]
  · intro fs np op d h1 h2 h3
    exact ⟨shutilMove_lookup_dst fs np op d h1 h2,
      shutilMove_lookup_src fs np op d h1 h2 h3⟩
  · intro fs base h
    simp [undo_last, h]
  · intro fs base h
    constructor
    · simp [undo_last, h]
    · intro fs' c heq
      rw [show undo_last fs base =
          some (removeFile ((splitlines (readText fs (joinPath base
              MOVE_LOG))).foldl undoStep (fs, 0)).1 (joinPath base MOVE_LOG),
            ((splitlines (readText fs (joinPath base MOVE_LOG))).foldl
              undoStep (fs, 0)).2) from by simp [undo_last, h]] at heq
      simp only [Option.some.injEq, Prod.mk.injEq] at heq
      rw [← heq.1]
      exact lookupFile_removeFile_self _ _

theorem c7_undo_line_spec_witness :
    undoStep (⟨[("x", ⟨"d", ⟨2024, 1⟩⟩)], ["t"]⟩, 3) "no tab here" =
      (⟨[("x", ⟨"d", ⟨2024, 1⟩⟩)], ["t"]⟩, 3) ∧
    undo_last (⟨[("x", ⟨"d", ⟨2024, 1⟩⟩)], ["t"]⟩ : FS) "t" = none :=
  ⟨c7_undo_line_spec.1 (⟨[("x", ⟨"d", ⟨2024, 1⟩⟩)], ["t"]⟩, 3)
      "no tab here" (by decide),
   c7_undo_line_spec.2.2.2.2.2.1 ⟨[("x", ⟨"d", ⟨2024, 1⟩⟩)], ["t"]⟩
      "t" (by decide)⟩

/-! ## Toward C3: auxiliary facts -/

theorem lookupFile_congr (fs fs' : FS) (h : fs'.files = fs.files)
    (q : String) : lookupFile fs' q = lookupFile fs q := by
  simp [lookupFile, h]

theorem dirE_iff_mem (fs : FS) (p : String) :
    dirE fs p = true ↔ p ∈ fs.dirs := by
  simp only [dirE, List.contains_eq_any_beq, List.any_eq_true]
  constructor
  · rintro ⟨x, hx, he⟩
    simp only [beq_iff_eq] at he
    exact he ▸ hx
  · intro h
    exact ⟨p, h, by simp⟩

theorem fileE_iff (fs : FS) (p : String) :
    fileE fs p = true ↔ lookupFile fs p ≠ none := by
  simp [fileE, Option.isSome_iff_ne_none]

theorem parentPath_length_lt (p : String) (h : hasSlash p = true) :
    (parentPath p).length < p.length := by
  obtain ⟨hdata, -⟩ := path_decomp p h
  have : p.data.length = (parentPath p).data.length + 1 +
      (fileName p).data.length := by
    rw [hdata]; simp; omega
  simp only [String.length]
  omega

theorem chainAux_no_slash (p : String) (h : hasSlash p = false) :
    ∀ fuel, chainAux fuel p = [p] := by
  intro fuel
  cases fuel with
  | zero => rfl
  | succ f => simp [chainAux, h]

theorem chainAux_succ (p : String) (f : ℕ) (h : hasSlash p = true) :
    chainAux (f + 1) p = p :: chainAux f (parentPath p) := by
  simp [chainAux, h]

theorem chainAux_stable (fuel : ℕ) :
    ∀ p : String, p.length ≤ fuel → chainAux fuel p = ancChain p := by
  induction fuel using Nat.strong_induction_on with
  | _ fuel ih =>
    intro p hp
    cases hs : hasSlash p with
    | false =>
      rw [chainAux_no_slash p hs fuel]
      unfold ancChain
      rw [chainAux_no_slash p hs p.length]
    | true =>
      have hlt := parentPath_length_lt p hs
      cases fuel with
      | zero => exact ((by omega : False)).elim
      | succ f =>
        obtain ⟨k, hk⟩ : ∃ k, p.length = k + 1 := ⟨p.length - 1, by omega⟩
        unfold ancChain
        rw [hk, chainAux_succ p f hs, chainAux_succ p k hs,
          ih f (by omega) (parentPath p) (by omega),
          ih k (by omega) (parentPath p) (by omega)]

theorem ancChain_cons (p : String) (h : hasSlash p = true) :
    ancChain p = p :: ancChain (parentPath p) := by
  have hlt := parentPath_length_lt p h
  obtain ⟨k, hk⟩ : ∃ k, p.length = k + 1 := ⟨p.length - 1, by omega⟩
  rw [show ancChain p = chainAux p.length p from rfl, hk,
    chainAux_succ p k h, chainAux_stable k (parentPath p) (by omega)]

theorem ancChain_single (p : String) (h : hasSlash p = false) :
    ancChain p = [p] := by
  rw [show ancChain p = chainAux p.length p from rfl,
    chainAux_no_slash p h p.length]

theorem ancChain_length (p : String) :
    ∀ d ∈ ancChain p, d.length ≤ p.length := by
  have hgen : ∀ n, ∀ q : String, q.length ≤ n →
      ∀ d ∈ ancChain q, d.length ≤ q.length := by
    intro n
    induction n using Nat.strong_induction_on with
    | _ n ih =>
      intro q hq d hd
      cases hs : hasSlash q with
      | false =>
        rw [ancChain_single q hs] at hd
        simp at hd
        simp [hd]
      | true =>
        rw [ancChain_cons q hs] at hd
        rcases List.mem_cons.mp hd with h | h
        · simp [h]
        · have hlt := parentPath_length_lt q hs
          obtain ⟨m, hm⟩ : ∃ m, n = m + 1 := ⟨n - 1, by omega⟩
          have := ih m (by omega) (parentPath q) (by omega) d h
          omega
  exact hgen p.length p (le_refl _)

theorem mkdirRec_frame (chain : List String) :
    ∀ fs fs', mkdirRec fs chain = .ok fs' →
      fs'.files = fs.files ∧ (∀ d ∈ fs.dirs, d ∈ fs'.dirs) ∧
      (∀ d ∈ fs'.dirs, d ∈ fs.dirs ∨ d ∈ chain) := by
  induction chain with
  | nil =>
    intro fs fs' h
    simp only [mkdirRec, Except.ok.injEq] at h
    subst h
    exact ⟨rfl, fun d hd => hd, fun d hd => Or.inl hd⟩
  | cons q ups ih =>
    intro fs fs' h
    simp only [mkdirRec] at h
    by_cases h1 : dirE fs q = true
    · rw [if_pos h1] at h
      simp only [Except.ok.injEq] at h
      subst h
      exact ⟨rfl, fun d hd => hd, fun d hd => Or.inl hd⟩
    · rw [if_neg h1] at h
      by_cases h2 : fileE fs q = true
      · rw [if_pos h2] at h
        cases h
      · rw [if_neg h2] at h
        by_cases h3 : (parentPath q = "" || dirE fs (parentPath q)) = true
        · rw [if_pos h3] at h
          simp only [Except.ok.injEq] at h
          subst h
          refine ⟨rfl, fun d hd => by simp [addDir, hd], fun d hd => ?_⟩
          simp only [addDir, List.mem_cons] at hd
          rcases hd with hd | hd
          · exact Or.inr (by simp [hd])
          · exact Or.inl hd
        · rw [if_neg h3] at h
          by_cases h4 : fileE fs (parentPath q) = true
          · rw [if_pos h4] at h
            cases h
          · rw [if_neg h4] at h
            cases hr : mkdirRec fs ups with
            | error e => rw [hr] at h; cases h
            | ok fs'' =>
              rw [hr] at h
              simp only [Except.ok.injEq] at h
              subst h
              obtain ⟨hf, hd1, hd2⟩ := ih fs fs'' hr
              refine ⟨by simp [addDir, hf],
                fun d hd => by simp [addDir]; exact Or.inr (hd1 d hd),
                fun d hd => ?_⟩
              simp only [addDir, List.mem_cons] at hd
              rcases hd with hd | hd
              · exact Or.inr (by simp [hd])
              · rcases hd2 d hd with h | h
                · exact Or.inl h
                · exact Or.inr (by simp [h])

theorem mkdirP_frame (fs : FS) (p : String) (fs' : FS)
    (h : mkdirP fs p = .ok fs') :
    fs'.files = fs.files ∧ (∀ d ∈ fs.dirs, d ∈ fs'.dirs) ∧
      (∀ d ∈ fs'.dirs, d ∈ fs.dirs ∨ d ∈ ancChain p) :=
  mkdirRec_frame (ancChain p) fs fs' h

theorem mkdirP_ok (fs : FS) (p : String)
    (h : ∀ d ∈ ancChain p, fileE fs d = false) :
    ∃ fs', mkdirP fs p = .ok fs' := by
  have hgen : ∀ n, ∀ q : String, q.length ≤ n →
      (∀ d ∈ ancChain q, fileE fs d = false) →
      ∃ fs', mkdirRec fs (ancChain q) = .ok fs' := by
    intro n
    induction n using Nat.strong_induction_on with
    | _ n ih =>
      intro q hq hfree
      have hqfree : fileE fs q = false := by
        apply hfree
        cases hs : hasSlash q with
        | false => rw [ancChain_single q hs]; simp
        | true => rw [ancChain_cons q hs]; simp
      cases hs : hasSlash q with
      | false =>
        rw [ancChain_single q hs]
        simp only [mkdirRec]
        by_cases h1 : dirE fs q = true
        · rw [if_pos h1]; exact ⟨fs, rfl⟩
        · rw [if_neg h1, hqfree]
          simp only [Bool.false_eq_true, if_false]
          rw [if_pos (by simp [parentPath_of_no_slash q hs])]
          exact ⟨addDir fs q, rfl⟩
      | true =>
        rw [ancChain_cons q hs]
        simp only [mkdirRec]
        by_cases h1 : dirE fs q = true
        · rw [if_pos h1]; exact ⟨fs, rfl⟩
        · rw [if_neg h1, hqfree]
          simp only [Bool.false_eq_true, if_false]
          by_cases h3 : (parentPath q = "" || dirE fs (parentPath q)) = true
          · rw [if_pos h3]
            exact ⟨addDir fs q, rfl⟩
          · rw [if_neg h3]
            have hparfree : fileE fs (parentPath q) = false := by
              apply hfree
              rw [ancChain_cons q hs]
              cases hs2 : hasSlash (parentPath q) with
              | false => rw [ancChain_single _ hs2]; simp
              | true => rw [ancChain_cons _ hs2]; simp
            rw [hparfree]
            simp only [Bool.false_eq_true, if_false]
            have hlt := parentPath_length_lt q hs
            obtain ⟨m, hm⟩ : ∃ m, n = m + 1 := ⟨n - 1, by omega⟩
            obtain ⟨fs'', hfs''⟩ := ih m (by omega) (parentPath q)
              (by omega) (by
                intro d hd
                apply hfree
                rw [ancChain_cons q hs]
                simp [hd])
            rw [hfs'']
            exact ⟨addDir fs'' q, rfl⟩
  exact hgen p.length p (le_refl _) h

theorem dedup_path_free (fs : FS) (dest : String) :
    pexists fs (dedup_path fs dest) = false := by
  by_cases h : pexists fs dest = true
  · obtain ⟨j, hj1, hj2, hj3⟩ := exists_free_cand fs dest
    obtain ⟨N, hN1, hN2, hN3, hN4⟩ := dedupLoop_finds fs dest
      (fs.files.length + fs.dirs.length + 1) 1 ⟨j, hj1, by omega, hj3⟩
    rw [dedup_path, if_pos h, hN2]
    exact hN3
  · rw [dedup_path, if_neg h]
    exact Bool.of_not_eq_true h

theorem splitTab1_line (a b : String) (ha : '\t' ∉ a.data) :
    splitTab1 (a ++ "\t" ++ b) = some (a, b) := by
  have hdata : (a ++ "\t" ++ b).data = a.data ++ '\t' :: b.data := by
    simp [String.data_append]
  unfold splitTab1
  rw [hdata]
  rw [if_pos (by simp)]
  have ht : a.data.takeWhile (fun c => !(c == '\t')) = a.data :=
    List.takeWhile_eq_self_iff.mpr (by
      intro c hc
      simp only [Bool.not_eq_true', beq_eq_false_iff_ne, ne_eq]
      intro hh; subst hh; exact ha hc)
  have hd : a.data.dropWhile (fun c => !(c == '\t')) = [] :=
    List.dropWhile_eq_nil_iff.mpr (by
      intro c hc
      simp only [Bool.not_eq_true', beq_eq_false_iff_ne, ne_eq, not_not]
      by_contra hh
      exact ha (by simpa [hh] using hc))
  rw [List.takeWhile_append, List.dropWhile_append, ht, hd]
  simp only [if_pos rfl, List.length_nil, List.isEmpty_nil, if_true]
  rw [show List.dropWhile (fun c => !(c == '\t')) ('\t' :: b.data) =
    '\t' :: b.data from by simp [List.dropWhile_cons]]
  rw [show List.takeWhile (fun c => !(c == '\t')) ('\t' :: b.data) = []
    from by simp [List.takeWhile_cons]]
  rw [List.append_nil]
  rfl

theorem nodup_cons_filter (l : List (String × FData)) (k : String)
    (pred : String × FData → Bool) (hN : (l.map (·.1)).Nodup)
    (hk : ∀ e : String × FData, e.1 = k → pred e = false) :
    (k :: ((l.filter pred).map (·.1))).Nodup := by
  refine List.nodup_cons.mpr ⟨?_, ?_⟩
  · intro hmem
    obtain ⟨e, he, heq⟩ := List.mem_map.mp hmem
    have hp := (List.mem_filter.mp he).2
    rw [hk e heq] at hp
    cases hp
  · exact ((List.filter_sublist l).map (·.1)).nodup hN

theorem nodup_shutilMove (fs : FS) (np op : String) (d : FData)
    (hnp : lookupFile fs np = some d) (hdir : dirE fs op = false)
    (hN : (fs.files.map (·.1)).Nodup) :
    ((shutilMoveFs fs np op).files.map (·.1)).Nodup := by
  rw [shutilMove_file_eq fs np op d hnp hdir]
  simp only [List.map_cons]
  exact nodup_cons_filter fs.files op _ hN (by
    intro e he
    simp [he])

theorem nodup_writeFile (fs : FS) (p : String) (d : FData)
    (hN : (fs.files.map (·.1)).Nodup) :
    ((writeFile fs p d).files.map (·.1)).Nodup := by
  simp only [writeFile, List.map_cons]
  exact nodup_cons_filter fs.files p _ hN (by
    intro e he
    simp [he])

/-- Inversion of a successful non-dry `move_file`. -/
theorem move_file_ok (fs : FS) (src dest : String)
    (mv : List (String × String)) (fs' : FS)
    (mv' : List (String × String)) (fin : String)
    (h : move_file fs src dest false mv = .ok (fs', mv', fin)) :
    ∃ fs1 d, mkdirP fs (parentPath dest) = .ok fs1 ∧
      fs1.files = fs.files ∧
      (∀ x ∈ fs.dirs, x ∈ fs1.dirs) ∧
      (∀ x ∈ fs1.dirs, x ∈ fs.dirs ∨ x ∈ ancChain (parentPath dest)) ∧
      fin = dedup_path fs1 dest ∧
      pexists fs1 fin = false ∧
      lookupFile fs src = some d ∧
      mv' = mv ++ [(fin, src)] ∧
      fs' = shutilMoveFs fs1 src fin := by
  unfold move_file at h
  cases hm : mkdirP fs (parentPath dest) with
  | error e => rw [hm] at h; cases h
  | ok fs1 =>
    rw [hm] at h
    simp only [if_false, Bool.false_eq_true] at h
    by_cases hf : fileE fs1 src = true
    · rw [if_pos hf] at h
      simp only [Except.ok.injEq, Prod.mk.injEq] at h
      obtain ⟨h1, h2, h3⟩ := h
      subst h3
      obtain ⟨hfi, hd1, hd2⟩ := mkdirP_frame fs (parentPath dest) fs1 hm
      obtain ⟨d, hd⟩ := Option.isSome_iff_exists.mp (by
        simpa [fileE] using hf)
      refine ⟨fs1, d, rfl, hfi, hd1, hd2, rfl,
        dedup_path_free fs1 dest, ?_, h2.symm, h1.symm⟩
      rw [← lookupFile_congr fs fs1 hfi src]
      exact hd
    · rw [if_neg hf] at h
      cases h

theorem move_file_mv (fs : FS) (src dest : String) (dry : Bool)
    (mv : List (String × String)) (fs' : FS)
    (mv' : List (String × String)) (fin : String)
    (h : move_file fs src dest dry mv = .ok (fs', mv', fin)) :
    mv' = mv ∨ mv' = mv ++ [(fin, src)] := by
  unfold move_file at h
  cases hmk : mkdirP fs (parentPath dest) with
  | error e => rw [hmk] at h; cases h
  | ok fs1 =>
    rw [hmk] at h
    dsimp only at h
    cases dry with
    | true =>
      rw [if_pos rfl] at h
      simp only [Except.ok.injEq, Prod.mk.injEq] at h
      exact Or.inl h.2.1.symm
    | false =>
      rw [if_neg (by simp)] at h
      by_cases hfe : fileE fs1 src = true
      · rw [if_pos hfe] at h
        simp only [Except.ok.injEq, Prod.mk.injEq] at h
        refine Or.inr ?_
        rw [← h.2.1, ← h.2.2]
      · rw [if_neg hfe] at h
        cases h

theorem organizeLoop_prefix (cfg : Config) (now : DateTime)
    (entries : List String) :
    ∀ fs mv c dry fsL moved n,
      organizeLoop cfg now entries fs mv c dry = .ok (fsL, moved, n) →
      ∃ new, moved = mv ++ new := by
  induction entries with
  | nil =>
    intro fs mv c dry fsL moved n h
    simp only [organizeLoop, Except.ok.injEq, Prod.mk.injEq] at h
    exact ⟨[], by simp [← h.2.1]⟩
  | cons p rest ih =>
    intro fs mv c dry fsL moved n h
    simp only [organizeLoop] at h
    by_cases hf : fileE fs p = true
    · rw [hf] at h
      simp only [Bool.not_true, Bool.false_eq_true, if_false] at h
      by_cases he : should_exclude p cfg = true
      · rw [if_pos he] at h
        exact ih fs mv c dry fsL moved n h
      · rw [if_neg he] at h
        cases hm : move_file fs p
            (joinPath (with_date_bucket cfg.target_dir
              (pick_category (statInfo fs p) cfg cfg.rules) cfg
              (statInfo fs p) now) (fileName p)) dry mv with
        | error e => rw [hm] at h; cases h
        | ok tri =>
          rw [hm] at h
          obtain ⟨fs', mv', fin⟩ := tri
          obtain ⟨new', hnew'⟩ := ih fs' mv' (c + 1) dry fsL moved n h
          rcases move_file_mv fs p _ dry mv fs' mv' fin hm with hh | hh
          · exact ⟨new', by rw [hnew', hh]⟩
          · exact ⟨(fin, p) :: new', by rw [hnew', hh]; simp⟩
    · rw [Bool.of_not_eq_true hf] at h
      simp only [Bool.not_false, if_true] at h
      exact ih fs mv c dry fsL moved n h

/-- Simulation of the non-dry scan loop: every move record gets its
original's content parked at a fresh final path that survives to the
end of the loop, with all bookkeeping needed to undo it afterwards. -/
theorem organizeLoop_sim (cfg : Config) (now : DateTime)
    (entries : List String) :
    ∀ (fs : FS) (mv : List (String × String)) (c : ℕ) (fsL : FS)
      (moved : List (String × String)) (n : ℕ),
      organizeLoop cfg now entries fs mv c false = .ok (fsL, moved, n) →
      (∀ e ∈ entries, parentPath e = cfg.source_dir) →
      (fs.files.map (·.1)).Nodup →
      (∀ pr ∈ moved, parentPath pr.1 ≠ cfg.source_dir) →
      (∀ pr ∈ mv, fileE fs pr.1 = true) →
      (mv.map (·.1)).Nodup →
      ∃ new, moved = mv ++ new ∧
        (fsL.files.map (·.1)).Nodup ∧
        (∀ x ∈ fs.dirs, x ∈ fsL.dirs) ∧
        (∀ pr ∈ moved, fileE fsL pr.1 = true) ∧
        (moved.map (·.1)).Nodup ∧
        (∀ pr ∈ new, parentPath pr.2 = cfg.source_dir ∧
          lookupFile fsL pr.1 = lookupFile fs pr.2 ∧
          lookupFile fs pr.2 ≠ none) ∧
        (new.map (·.2)).Nodup ∧
        (∀ pr ∈ mv, lookupFile fsL pr.1 = lookupFile fs pr.1) := by
  induction entries with
  | nil =>
    intro fs mv c fsL moved n h hent hN hB hmvE hmvN
    simp only [organizeLoop, Except.ok.injEq, Prod.mk.injEq] at h
    obtain ⟨h1, h2, h3⟩ := h
    refine ⟨[], by simp [← h2], ?_, ?_, ?_, ?_, by simp, by simp, ?_⟩
    · rw [← h1]; exact hN
    · rw [← h1]; exact fun x hx => hx
    · rw [← h1, ← h2]; exact hmvE
    · rw [← h2]; exact hmvN
    · rw [← h1]; exact fun pr hpr => rfl
  | cons p rest ih =>
    intro fs mv c fsL moved n h hent hN hB hmvE hmvN
    have hpsrc : parentPath p = cfg.source_dir := hent p (by simp)
    simp only [organizeLoop] at h
    by_cases hf : fileE fs p = true
    · rw [hf] at h
      simp only [Bool.not_true, Bool.false_eq_true, if_false] at h
      by_cases he : should_exclude p cfg = true
      · rw [if_pos he] at h
        exact ih fs mv c fsL moved n h
          (fun e hee => hent e (by simp [hee])) hN hB hmvE hmvN
      · rw [if_neg he] at h
        cases hm : move_file fs p
            (joinPath (with_date_bucket cfg.target_dir
              (pick_category (statInfo fs p) cfg cfg.rules) cfg
              (statInfo fs p) now) (fileName p)) false mv with
        | error e => rw [hm] at h; cases h
        | ok tri =>
          rw [hm] at h
          obtain ⟨fs', mv', fin⟩ := tri
          obtain ⟨fs1, d, hmk, hfi, hdir1, hdir2, hfin, hpex, hlook,
            hmv', hfs'⟩ := move_file_ok fs p _ mv fs' mv' fin hm
          -- the final moved list extends mv', so hB covers (fin, p)
          obtain ⟨tail, htail⟩ :=
            organizeLoop_prefix cfg now rest fs' mv' (c + 1) false
              fsL moved n h
          have hfinmem : (fin, p) ∈ moved := by
            rw [htail, hmv']
            simp
          have hmvsub : ∀ pr ∈ mv, pr ∈ moved := by
            intro pr hpr
            rw [htail, hmv']
            simp [hpr]
          -- the deduplicated final path is fresh
          have hboth : fileE fs1 fin = false ∧ dirE fs1 fin = false := by
            have := hpex
            simp only [pexists, Bool.or_eq_false_iff] at this
            exact this
          have hfinE : fileE fs fin = false := by
            rw [← hboth.1]
            simp [fileE, lookupFile_congr fs fs1 hfi fin]
          have hlook1 : lookupFile fs1 p = some d := by
            rw [lookupFile_congr fs fs1 hfi p]
            exact hlook
          have hnefin : p ≠ fin := by
            intro hq
            rw [hq, hfinE] at hf
            cases hf
          have hF'dst : lookupFile fs' fin = some d := by
            rw [hfs']
            exact shutilMove_lookup_dst fs1 p fin d hlook1 hboth.2
          have hF'src : lookupFile fs' p = none := by
            rw [hfs']
            exact shutilMove_lookup_src fs1 p fin d hlook1 hboth.2 hnefin
          have hF'other : ∀ q, q ≠ p → q ≠ fin →
              lookupFile fs' q = lookupFile fs q := by
            intro q h1 h2
            rw [hfs', shutilMove_lookup_other fs1 p fin q d hlook1
              hboth.2 h1 h2]
            exact lookupFile_congr fs fs1 hfi q
          have hF'N : (fs'.files.map (·.1)).Nodup := by
            rw [hfs']
            exact nodup_shutilMove fs1 p fin d hlook1 hboth.2
              (by rw [hfi]; exact hN)
          have hF'dirs : fs'.dirs = fs1.dirs := by
            rw [hfs']
            exact shutilMove_file_dirs fs1 p fin d hlook1 hboth.2
          -- hypotheses of the inductive call
          have hmv'E : ∀ pr ∈ mv', fileE fs' pr.1 = true := by
            intro pr hpr
            rw [hmv'] at hpr
            rcases List.mem_append.mp hpr with hpr | hpr
            · have h1 : pr.1 ≠ p := by
                intro hq
                have := hB pr (hmvsub pr hpr)
                rw [hq, hpsrc] at this
                exact this rfl
              have h2 : pr.1 ≠ fin := by
                intro hq
                have := hmvE pr hpr
                rw [hq, hfinE] at this
                cases this
              rw [show fileE fs' pr.1 = fileE fs pr.1 from by
                simp [fileE, hF'other pr.1 h1 h2]]
              exact hmvE pr hpr
            · simp at hpr
              subst hpr
              simp [fileE, hF'dst]
          have hmv'N : (mv'.map (·.1)).Nodup := by
            rw [hmv', List.map_append]
            refine List.Nodup.append hmvN (by simp) ?_
            intro x hx hx2
            simp at hx2
            rw [hx2] at hx
            obtain ⟨pr, hpr, hpr2⟩ := List.mem_map.mp hx
            have := hmvE pr hpr
            rw [hpr2, hfinE] at this
            cases this
          obtain ⟨new', hnew', hO1, hO2, hO3, hO4, hO5, hO7, hO9⟩ :=
            ih fs' mv' (c + 1) fsL moved n h
              (fun e hee => hent e (by simp [hee])) hF'N hB hmv'E hmv'N
          -- head separations used by the tail translations
          have hheadB : parentPath fin ≠ cfg.source_dir := hB _ hfinmem
          have htailne : ∀ pr ∈ new', pr.2 ≠ p ∧ pr.2 ≠ fin := by
            intro pr hpr
            obtain ⟨hp1, hp2, hp3⟩ := hO5 pr hpr
            constructor
            · intro hq
              rw [hq, hF'src] at hp3
              exact hp3 rfl
            · intro hq
              rw [hq] at hp1
              exact hheadB hp1
          refine ⟨(fin, p) :: new', ?_, hO1, ?_, hO3, hO4, ?_, ?_, ?_⟩
          · rw [hnew', hmv']
            simp
          · intro x hx
            exact hO2 x (by rw [hF'dirs]; exact hdir1 x hx)
          · intro pr hpr
            rcases List.mem_cons.mp hpr with hpr | hpr
            · subst hpr
              refine ⟨hpsrc, ?_, ?_⟩
              · rw [hO9 (fin, p) (by rw [hmv']; simp)]
                rw [hF'dst, hlook]
              · rw [hlook]
                simp
            · obtain ⟨hp1, hp2, hp3⟩ := hO5 pr hpr
              obtain ⟨hn1, hn2⟩ := htailne pr hpr
              refine ⟨hp1, ?_, ?_⟩
              · rw [hp2, hF'other pr.2 hn1 hn2]
              · rw [← hF'other pr.2 hn1 hn2]
                exact hp3
          · refine List.nodup_cons.mpr ⟨?_, hO7⟩
            intro hmem
            obtain ⟨pr, hpr, hpr2⟩ := List.mem_map.mp hmem
            exact (htailne pr hpr).1 hpr2
          · intro pr hpr
            have h1 : pr.1 ≠ p := by
              intro hq
              have := hB pr (hmvsub pr hpr)
              rw [hq, hpsrc] at this
              exact this rfl
            have h2 : pr.1 ≠ fin := by
              intro hq
              have := hmvE pr hpr
              rw [hq, hfinE] at this
              cases this
            rw [hO9 pr (by rw [hmv']; simp [hpr]), hF'other pr.1 h1 h2]
    · rw [Bool.of_not_eq_true hf] at h
      simp only [Bool.not_false, if_true] at h
      exact ih fs mv c fsL moved n h
        (fun e hee => hent e (by simp [hee])) hN hB hmvE hmvN

/-- Walking the persisted lines in order restores every record:
each final path still holds the parked content, the original's parent
is recreated under the source directory, and the file moves back. -/
theorem undo_fold (srcD : String) (hsrc : srcD ≠ "")
    (vmap : String → Option FData) :
    ∀ (rest : List (String × String)) (F : FS) (c0 : ℕ),
      (F.files.map (·.1)).Nodup →
      (∀ pr ∈ rest, ∃ d, lookupFile F pr.1 = some d ∧ vmap pr.2 = some d) →
      (∀ pr ∈ rest, parentPath pr.2 = srcD ∧ parentPath pr.1 ≠ srcD) →
      (rest.map (·.1)).Nodup →
      (rest.map (·.2)).Nodup →
      (∀ d ∈ ancChain srcD, fileE F d = false) →
      (∀ pr ∈ rest, dirE F pr.2 = false) →
      (∀ pr ∈ rest, '\t' ∉ pr.1.data) →
      ∃ F', (rest.map (fun pr => pr.1 ++ "\t" ++ pr.2)).foldl undoStep (F, c0)
          = (F', c0 + rest.length) ∧
        (∀ pr ∈ rest, lookupFile F' pr.2 = vmap pr.2) ∧
        (∀ q, q ∉ rest.map (·.1) → q ∉ rest.map (·.2) →
          lookupFile F' q = lookupFile F q) ∧
        (∀ x ∈ F.dirs, x ∈ F'.dirs) ∧
        (∀ x ∈ F'.dirs, x ∈ F.dirs ∨ x ∈ ancChain srcD) ∧
        (F'.files.map (·.1)).Nodup := by
  have hAnotchain : ∀ q : String, parentPath q = srcD →
      q ∉ ancChain srcD := by
    intro q hq hmem
    have h1 := ancChain_length srcD q hmem
    have h2 := length_of_parent q srcD hsrc hq
    omega
  intro rest
  induction rest with
  | nil =>
    intro F c0 hN _ _ _ _ _ _ _
    exact ⟨F, by simp, by simp, fun q _ _ => rfl, fun x hx => hx,
      fun x hx => Or.inl hx, hN⟩
  | cons pr rest' ih =>
    intro F c0 hN hval hpar hBN hAN hchain hAdir htab
    obtain ⟨d, hdB, hdv⟩ := hval pr (by simp)
    obtain ⟨hA, hBns⟩ := hpar pr (by simp)
    -- the per-line mkdir on the source directory succeeds
    obtain ⟨F1, hF1⟩ := mkdirP_ok F srcD (fun x hx => hchain x hx)
    obtain ⟨hF1f, hF1d1, hF1d2⟩ := mkdirP_frame F srcD F1 hF1
    have hlookB1 : lookupFile F1 pr.1 = some d := by
      rw [lookupFile_congr F F1 hF1f pr.1]
      exact hdB
    have hpex1 : pexists F1 pr.1 = true := by
      simp [pexists, fileE, hlookB1]
    -- the original path is not a directory
    have hAdir1 : dirE F1 pr.2 = false := by
      rcases Bool.eq_false_or_eq_true (dirE F1 pr.2) with hdd | hdd
      swap
      · exact hdd
      · exfalso
        rcases hF1d2 pr.2 ((dirE_iff_mem F1 pr.2).mp hdd) with hx | hx
        · have h2 := (dirE_iff_mem F pr.2).mpr hx
          rw [hAdir pr (by simp)] at h2
          cases h2
        · exact hAnotchain pr.2 hA hx
    have hBneA : pr.1 ≠ pr.2 := by
      intro hq
      rw [← hq] at hA
      exact hBns hA
    -- the line is parsed and the file moves back
    have hstep : undoStep (F, c0) (pr.1 ++ "\t" ++ pr.2) =
        (shutilMoveFs F1 pr.1 pr.2, c0 + 1) := by
      unfold undoStep
      rw [splitTab1_line pr.1 pr.2 (htab pr (by simp))]
      dsimp only
      rw [show mkdirP F (parentPath pr.2) = .ok F1 from by
        rw [hA]; exact hF1]
      dsimp only
      rw [hpex1]
      simp
    set F2 := shutilMoveFs F1 pr.1 pr.2 with hF2
    have hlookA2 : lookupFile F2 pr.2 = some d :=
      shutilMove_lookup_dst F1 pr.1 pr.2 d hlookB1 hAdir1
    have hlookB2 : lookupFile F2 pr.1 = none :=
      shutilMove_lookup_src F1 pr.1 pr.2 d hlookB1 hAdir1 hBneA
    have hother2 : ∀ q, q ≠ pr.1 → q ≠ pr.2 →
        lookupFile F2 q = lookupFile F q := by
      intro q h1 h2
      rw [hF2, shutilMove_lookup_other F1 pr.1 pr.2 q d hlookB1 hAdir1
        h1 h2]
      exact lookupFile_congr F F1 hF1f q
    have hN2 : (F2.files.map (·.1)).Nodup :=
      nodup_shutilMove F1 pr.1 pr.2 d hlookB1 hAdir1
        (by rw [hF1f]; exact hN)
    have hdirs2 : F2.dirs = F1.dirs :=
      shutilMove_file_dirs F1 pr.1 pr.2 d hlookB1 hAdir1
    have hBN2 : pr.1 ∉ rest'.map (·.1) ∧ (rest'.map (·.1)).Nodup :=
      List.nodup_cons.mp (by rw [← List.map_cons]; exact hBN)
    have hAN2 : pr.2 ∉ rest'.map (·.2) ∧ (rest'.map (·.2)).Nodup :=
      List.nodup_cons.mp (by rw [← List.map_cons]; exact hAN)
    -- re-establish the invariant for the remaining lines
    have hval' : ∀ q ∈ rest', ∃ e, lookupFile F2 q.1 = some e ∧
        vmap q.2 = some e := by
      intro q hq
      obtain ⟨e, he1, he2⟩ := hval q (by simp [hq])
      refine ⟨e, ?_, he2⟩
      rw [hother2 q.1 ?_ ?_]
      · exact he1
      · intro hqq
        exact hBN2.1 (by rw [← hqq]; exact List.mem_map_of_mem _ hq)
      · intro hqq
        have := (hpar q (by simp [hq])).2
        rw [hqq, hA] at this
        exact this rfl
    have hchain' : ∀ x ∈ ancChain srcD, fileE F2 x = false := by
      intro x hx
      by_cases hxB : x = pr.1
      · rw [hxB]
        simp [fileE, hlookB2]
      · have hxA : x ≠ pr.2 := by
          intro hq
          exact hAnotchain pr.2 hA (hq ▸ hx)
        rw [show fileE F2 x = fileE F x from by
          simp [fileE, hother2 x hxB hxA]]
        exact hchain x hx
    have hAdir' : ∀ q ∈ rest', dirE F2 q.2 = false := by
      intro q hq
      rcases Bool.eq_false_or_eq_true (dirE F2 q.2) with hdd | hdd
      swap
      · exact hdd
      · exfalso
        have hdd1 : dirE F1 q.2 = true := by
          simpa [dirE, hdirs2] using hdd
        rcases hF1d2 q.2 ((dirE_iff_mem F1 q.2).mp hdd1) with hx | hx
        · have h2 := (dirE_iff_mem F q.2).mpr hx
          rw [hAdir q (by simp [hq])] at h2
          cases h2
        · exact hAnotchain q.2 (hpar q (by simp [hq])).1 hx
    obtain ⟨F', hfold, hrest, hframe, hdmono, hdsub, hN'⟩ :=
      ih F2 (c0 + 1) hN2 hval'
        (fun q hq => hpar q (by simp [hq]))
        hBN2.2 hAN2.2
        hchain' hAdir'
        (fun q hq => htab q (by simp [hq]))
    have hAnotB' : pr.2 ∉ rest'.map (·.1) := by
      intro hmem
      obtain ⟨q, hq, hq2⟩ := List.mem_map.mp hmem
      have := (hpar q (by simp [hq])).2
      rw [hq2, hA] at this
      exact this rfl
    have hAnotA' : pr.2 ∉ rest'.map (·.2) := hAN2.1
    refine ⟨F', ?_, ?_, ?_, ?_, ?_, hN'⟩
    · rw [List.map_cons, List.foldl_cons, hstep, hfold]
      simp only [List.length_cons]
      congr 1
      omega
    · intro q hq
      rcases List.mem_cons.mp hq with hq | hq
      · subst hq
        rw [hframe q.2 hAnotB' hAnotA', hlookA2, hdv]
      · exact hrest q hq
    · intro q hq1 hq2
      have hq1' : q ∉ rest'.map (·.1) := by
        intro hx; exact hq1 (by simp [hx])
      have hq2' : q ∉ rest'.map (·.2) := by
        intro hx; exact hq2 (by simp [hx])
      have hqB : q ≠ pr.1 := by
        intro hx; exact hq1 (by simp [hx])
      have hqA : q ≠ pr.2 := by
        intro hx; exact hq2 (by simp [hx])
      rw [hframe q hq1' hq2', hother2 q hqB hqA]
    · intro x hx
      exact hdmono x (by rw [hdirs2]; exact hF1d1 x hx)
    · intro x hx
      rcases hdsub x hx with hx2 | hx2
      · rw [hdirs2] at hx2
        exact hF1d2 x hx2
      · exact Or.inr hx2

/-- **C3.** For a non-dry one-shot run (with a well-formed starting
state: distinct file entries, a non-empty source-directory name
distinct from the target root, records that leave the source directory
and do not collide with the log or the source ancestor chain), running
undo afterwards moves every moved file back — the content found at
each original path afterwards is exactly what was there before the
run — removes `.moves.log`, reports every record undone, and a second
undo immediately after reports `NoLogFound`. -/
theorem c3_move_undo_roundtrip (cfg : Config) (now : DateTime)
    (fs0 fsL fs1 : FS) (moved : List (String × String)) (n : ℕ)
    (hsrc : cfg.source_dir ≠ "")
    (hst : cfg.source_dir ≠ cfg.target_dir)
    (hloop : organizeLoop cfg now (listdir fs0 cfg.source_dir) fs0 [] 0 false
      = .ok (fsL, moved, n))
    (hsave : save_move_log fsL cfg.target_dir moved = .ok fs1)
    (hwf : (fs0.files.map (·.1)).Nodup)
    (hmne : moved ≠ [])
    (hB : ∀ pr ∈ moved, parentPath pr.1 ≠ cfg.source_dir)
    (htab : ∀ pr ∈ moved, '\t' ∉ pr.1.data ∧ '\n' ∉ pr.1.data ∧
      '\n' ∉ pr.2.data)
    (hBlog : ∀ pr ∈ moved, pr.1 ≠ joinPath cfg.target_dir MOVE_LOG)
    (hAdirs : ∀ pr ∈ moved, dirE fs1 pr.2 = false)
    (hchain : ∀ d ∈ ancChain cfg.source_dir, fileE fs1 d = false)
    (hlogdir : dirE fs1 (joinPath cfg.target_dir MOVE_LOG) = false)
    (hlogsrc : joinPath cfg.target_dir MOVE_LOG ∉ ancChain cfg.source_dir) :
    organize_once cfg now fs0 false = .ok (fs1, n) ∧
    ∃ fs2, undo_last fs1 cfg.target_dir = some (fs2, moved.length) ∧
      (∀ pr ∈ moved, lookupFile fs2 pr.2 = lookupFile fs0 pr.2) ∧
      lookupFile fs2 (joinPath cfg.target_dir MOVE_LOG) = none ∧
      undo_last fs2 cfg.target_dir = none := by
  set srcD := cfg.source_dir with hsrcD
  set tgtD := cfg.target_dir with htgtD
  set log := joinPath tgtD MOVE_LOG with hlogdef
  -- the run reported as organize_once
  have horg : organize_once cfg now fs0 false = .ok (fs1, n) := by
    unfold organize_once
    rw [hloop]
    simp only [Bool.false_eq_true, if_false]
    rw [hsave]
  -- phase 1: what the loop guarantees
  obtain ⟨new, hnew, hO1, hO2, hO3, hO4, hO5m, hO7, -⟩ :=
    organizeLoop_sim cfg now (listdir fs0 srcD) fs0 [] 0 fsL moved n
      hloop
      (fun e hee => by
        have := (List.mem_filter.mp hee).2
        simpa using this)
      hwf hB (by simp) (by simp)
  have hnewm : new = moved := by rw [hnew]; simp
  have hO5 : ∀ pr ∈ moved, parentPath pr.2 = srcD ∧
      lookupFile fsL pr.1 = lookupFile fs0 pr.2 ∧
      lookupFile fs0 pr.2 ≠ none := by
    rw [← hnewm]; exact hO5m
  have hO7m : (moved.map (·.2)).Nodup := by rw [← hnewm]; exact hO7
  -- inversion of the save step
  have hsave2 : dirE fsL log = false ∧
      fs1 = writeFile fsL log ⟨serializeLog moved, ⟨0, 0⟩⟩ := by
    unfold save_move_log at hsave
    rw [if_neg (by simpa [List.isEmpty_iff] using hmne)] at hsave
    rcases Bool.eq_false_or_eq_true (dirE fsL log) with hd | hd
    · rw [hd] at hsave
      simp at hsave
    · rw [hd] at hsave
      simp only [Bool.false_eq_true, if_false, Except.ok.injEq] at hsave
      exact ⟨hd, hsave.symm⟩
  have hlog1 : lookupFile fs1 log = some ⟨serializeLog moved, ⟨0, 0⟩⟩ := by
    rw [hsave2.2]
    exact lookupFile_writeFile_self fsL log _
  have hother1 : ∀ q, q ≠ log → lookupFile fs1 q = lookupFile fsL q := by
    intro q hq
    rw [hsave2.2]
    exact lookupFile_writeFile_ne fsL log q _ hq
  have hdirs1 : fs1.dirs = fsL.dirs := by rw [hsave2.2]; rfl
  have hN1 : (fs1.files.map (·.1)).Nodup := by
    rw [hsave2.2]
    exact nodup_writeFile fsL log _ hO1
  -- parent of every original is the source dir; of the log, the target
  have hlogpar : parentPath log = tgtD :=
    parentPath_join tgtD MOVE_LOG (by decide)
  have hAnelog : ∀ pr ∈ moved, pr.2 ≠ log := by
    intro pr hpr hq
    have h1 := (hO5 pr hpr).1
    rw [hq, hlogpar] at h1
    exact hst h1.symm
  -- phase 2: undo restores everything
  obtain ⟨F', hfold, hrest, hframe, hdmono, hdsub, hN'⟩ :=
    undo_fold srcD hsrc (lookupFile fs0) moved fs1 0 hN1
      (by
        intro pr hpr
        obtain ⟨h1, h2, h3⟩ := hO5 pr hpr
        obtain ⟨d, hd⟩ := Option.ne_none_iff_exists'.mp h3
        refine ⟨d, ?_, hd⟩
        rw [hother1 pr.1 (hBlog pr hpr), h2, hd])
      (fun pr hpr => ⟨(hO5 pr hpr).1, hB pr hpr⟩)
      hO4 hO7m hchain hAdirs
      (fun pr hpr => (htab pr hpr).1)
  have hpex1 : pexists fs1 log = true := by
    simp [pexists, fileE, hlog1]
  have hnl : ∀ pr ∈ moved, '\n' ∉ pr.1.data ∧ '\n' ∉ pr.2.data :=
    fun pr hpr => ⟨(htab pr hpr).2.1, (htab pr hpr).2.2⟩
  have hundo : undo_last fs1 tgtD = some (removeFile F' log, moved.length)
      := by
    unfold undo_last
    rw [if_pos hpex1]
    rw [show readText fs1 (joinPath tgtD MOVE_LOG) = serializeLog moved
      from by simp [readText, ← hlogdef, hlog1]]
    rw [splitlines_serialize moved hnl, hfold]
    simp
  refine ⟨horg, removeFile F' log, hundo, ?_, ?_, ?_⟩
  · intro pr hpr
    rw [lookupFile_removeFile_ne F' log pr.2 (hAnelog pr hpr),
      hrest pr hpr]
  · exact lookupFile_removeFile_self F' log
  · unfold undo_last
    rw [if_neg ?_]
    intro hpx
    rcases Bool.or_eq_true_iff.mp hpx with hpx | hpx
    · rw [show fileE (removeFile F' log) (joinPath tgtD MOVE_LOG) =
        false from by simp [fileE, ← hlogdef, lookupFile_removeFile_self]]
        at hpx
      cases hpx
    · have hmem : log ∈ F'.dirs := by
        have := (dirE_iff_mem (removeFile F' log) log).mp (by
          rw [hlogdef] at hpx ⊢
          exact hpx)
        simpa [removeFile] using this
      rcases hdsub log hmem with hx | hx
      · have := (dirE_iff_mem fs1 log).mpr hx
        rw [hlogdir] at this
        cases this
      · exact hlogsrc hx

theorem c3_move_undo_roundtrip_witness :
    organize_once
      { source_dir := "s", target_dir := "t",
        extensions := [("Documents", ["txt"])], rules := [], exclude := [],
        bucket_mode := none, unknown_category := none }
      ⟨2026, 1⟩ ⟨[("s/a.txt", ⟨"xx", ⟨2024, 1⟩⟩)], ["s", "t"]⟩ false =
      .ok (⟨[("t/.moves.log",
          ⟨"t/Documents/a.txt\ts/a.txt\n", ⟨0, 0⟩⟩),
        ("t/Documents/a.txt", ⟨"xx", ⟨2024, 1⟩⟩)],
        ["t/Documents", "s", "t"]⟩, 1) ∧
    ∃ fs2, undo_last ⟨[("t/.moves.log",
          ⟨"t/Documents/a.txt\ts/a.txt\n", ⟨0, 0⟩⟩),
        ("t/Documents/a.txt", ⟨"xx", ⟨2024, 1⟩⟩)],
        ["t/Documents", "s", "t"]⟩ "t" =
        some (fs2, [("t/Documents/a.txt", "s/a.txt")].length) ∧
      (∀ pr ∈ [("t/Documents/a.txt", "s/a.txt")],
        lookupFile fs2 pr.2 =
          lookupFile ⟨[("s/a.txt", ⟨"xx", ⟨2024, 1⟩⟩)], ["s", "t"]⟩ pr.2) ∧
      lookupFile fs2 (joinPath "t" MOVE_LOG) = none ∧
      undo_last fs2 "t" = none :=
  c3_move_undo_roundtrip
    { source_dir := "s", target_dir := "t",
      extensions := [("Documents", ["txt"])], rules := [], exclude := [],
      bucket_mode := none, unknown_category := none }
    ⟨2026, 1⟩ ⟨[("s/a.txt", ⟨"xx", ⟨2024, 1⟩⟩)], ["s", "t"]⟩
    ⟨[("t/Documents/a.txt", ⟨"xx", ⟨2024, 1⟩⟩)], ["t/Documents", "s", "t"]⟩
    ⟨[("t/.moves.log", ⟨"t/Documents/a.txt\ts/a.txt\n", ⟨0, 0⟩⟩),
      ("t/Documents/a.txt", ⟨"xx", ⟨2024, 1⟩⟩)], ["t/Documents", "s", "t"]⟩
    [("t/Documents/a.txt", "s/a.txt")] 1
    (by decide) (by decide) rfl rfl (by decide) (by decide)
    (by decide) (by decide) (by decide) (by decide) (by decide)
    (by decide) (by decide)
